import Mathlib

/-!
# Signed init-data generator (`node_js_mock_data/generate_data.js`)

A shallow embedding of the script and of the built-ins it calls
(`JSON.stringify`, `encodeURIComponent`, `URLSearchParams`, `Array.prototype.sort`,
`Array.prototype.join` and `crypto.createHmac('sha256', …)`), followed by the
properties established for it.

Strings held by a `URLSearchParams` object are scalar-value strings, modelled as
`List Char`; the strings of the user record are arbitrary ECMAScript strings,
modelled as lists of UTF-16 code units.  Bytes and 32-bit words are natural
numbers, reduced modulo `2^8` and `2^32` where the arithmetic can overflow.
-/

namespace GenerateData

/-- A scalar-value string: a sequence of Unicode scalar values. -/
abbrev Str := List Char

/-- An ECMAScript string: a sequence of 16-bit code units. -/
abbrev JSString := List Nat

/-! ## Encodings -/

/-- The UTF-16 code units of one code point. -/
def utf16EncodeCodePoint (cp : Nat) : List Nat :=
  if cp < 65536 then [cp]
  else [55296 + (cp - 65536) / 1024, 56320 + (cp - 65536) % 1024]

/-- The code units of a scalar-value string, as ECMAScript stores it. -/
def utf16 (s : Str) : JSString :=
  s.flatMap fun c => utf16EncodeCodePoint c.toNat

/-- The UTF-8 bytes of one code point. -/
def utf8EncodeCodePoint (cp : Nat) : List Nat :=
  if cp < 128 then [cp]
  else if cp < 2048 then [192 + cp / 64, 128 + cp % 64]
  else if cp < 65536 then [224 + cp / 4096, 128 + cp / 64 % 64, 128 + cp % 64]
  else [240 + cp / 262144 % 8, 128 + cp / 4096 % 64, 128 + cp / 64 % 64, 128 + cp % 64]

/-- The UTF-8 bytes of a scalar-value string. -/
def utf8 (s : Str) : List Nat :=
  s.flatMap fun c => utf8EncodeCodePoint c.toNat

/-- Lowercase hexadecimal digits, as `digest('hex')` and `\u` escapes print them. -/
def hexLower : List Char :=
  ['0', '1', '2', '3', '4', '5', '6', '7', '8', '9', 'a', 'b', 'c', 'd', 'e', 'f']

/-- Uppercase hexadecimal digits, as percent-encoding prints them. -/
def hexUpper : List Char :=
  ['0', '1', '2', '3', '4', '5', '6', '7', '8', '9', 'A', 'B', 'C', 'D', 'E', 'F']

/-- The percent-encoding of one byte: `%` and two uppercase hexadecimal digits. -/
def percentEncodeByte (b : Nat) : Str :=
  ['%', hexUpper.getD (b / 16 % 16) '0', hexUpper.getD (b % 16) '0']

/-- ASCII letters and digits. -/
def isAsciiAlphanumeric (c : Char) : Bool :=
  (48 ≤ c.toNat && c.toNat ≤ 57) || (65 ≤ c.toNat && c.toNat ≤ 90)
    || (97 ≤ c.toNat && c.toNat ≤ 122)

/-- The characters `encodeURIComponent` leaves as they are: letters, digits and
`- _ . ! ~ * ' ( )`. -/
def uriUnreserved (c : Char) : Bool :=
  isAsciiAlphanumeric c || ['-', '_', '.', '!', '~', '*', '\'', '(', ')'].contains c

/-- The built-in `encodeURIComponent` on a well-formed string: every character outside
the unreserved set is replaced by the percent-encoding of its UTF-8 bytes. -/
def encodeURIComponent (s : Str) : Str :=
  s.flatMap fun c =>
    if uriUnreserved c then [c] else (utf8EncodeCodePoint c.toNat).flatMap percentEncodeByte

/-- The characters outside the `application/x-www-form-urlencoded` percent-encode set:
letters, digits and `* - . _`. -/
def formUnescaped (c : Char) : Bool :=
  isAsciiAlphanumeric c || ['*', '-', '.', '_'].contains c

/-- The serializer of `application/x-www-form-urlencoded` applied to one name or value:
a space becomes `+`, a character outside the percent-encode set stays, every other
character is replaced by the percent-encoding of its UTF-8 bytes. -/
def formUrlEncode (s : Str) : Str :=
  s.flatMap fun c =>
    if c = ' ' then ['+']
    else if formUnescaped c then [c]
    else (utf8EncodeCodePoint c.toNat).flatMap percentEncodeByte

/-! ## `JSON.stringify` on an object literal of primitive values -/

/-- The code points of an ECMAScript string (`StringToCodePoints`): a leading surrogate
followed by a trailing one is one supplementary code point, every other code unit stands
for itself. -/
def stringToCodePoints : JSString → List Nat
  | [] => []
  | [c] => [c]
  | c :: d :: rest =>
    if 55296 ≤ c ∧ c ≤ 56319 ∧ 56320 ≤ d ∧ d ≤ 57343 then
      ((c - 55296) * 1024 + (d - 56320) + 65536) :: stringToCodePoints rest
    else c :: stringToCodePoints (d :: rest)

/-- The escape `\uXXXX` of a code unit, with lowercase hexadecimal digits. -/
def unicodeEscape (c : Nat) : Str :=
  ['\\', 'u', hexLower.getD (c / 4096 % 16) '0', hexLower.getD (c / 256 % 16) '0',
    hexLower.getD (c / 16 % 16) '0', hexLower.getD (c % 16) '0']

/-- The text `QuoteJSONString` writes for one code point. -/
def quoteCodePoint (cp : Nat) : Str :=
  if cp = 8 then ['\\', 'b']
  else if cp = 9 then ['\\', 't']
  else if cp = 10 then ['\\', 'n']
  else if cp = 12 then ['\\', 'f']
  else if cp = 13 then ['\\', 'r']
  else if cp = 34 then ['\\', '"']
  else if cp = 92 then ['\\', '\\']
  else if cp < 32 ∨ (55296 ≤ cp ∧ cp ≤ 57343) then unicodeEscape cp
  else [Char.ofNat cp]

/-- The abstract operation `QuoteJSONString`. -/
def quoteJSONString (s : JSString) : Str :=
  '"' :: (stringToCodePoints s).flatMap quoteCodePoint ++ ['"']

/-- The primitive values the user record holds. -/
inductive Prim where
  | num (n : Int)
  | str (s : JSString)
  | bool (b : Bool)

/-- The text of `Number::toString` for an integral number that is a safe integer
(magnitude below `2^53`): its decimal digits, after a minus sign when negative. -/
def numberToString (n : Int) : Str :=
  if n < 0 then '-' :: Nat.toDigits 10 n.natAbs else Nat.toDigits 10 n.natAbs

/-- The abstract operation `SerializeJSONProperty` on a primitive value. -/
def serializeJSONProperty : Prim → Str
  | .num n => numberToString n
  | .str s => quoteJSONString s
  | .bool true => ['t', 'r', 'u', 'e']
  | .bool false => ['f', 'a', 'l', 's', 'e']

/-- One member of a serialized object: the quoted key, a colon, the value; the gap is
empty since `JSON.stringify` is called without a `space` argument. -/
def serializeMember (kv : JSString × Prim) : Str :=
  quoteJSONString kv.1 ++ ':' :: serializeJSONProperty kv.2

/-- The built-in `JSON.stringify` (`SerializeJSONObject` with an empty gap) on an object
given by its own properties in creation order, none of whose keys is an array index. -/
def jsonStringify (props : List (JSString × Prim)) : Str :=
  '{' :: [','].intercalate (props.map serializeMember) ++ ['}']

/-- The code units of a string literal of the script. -/
def lit (s : String) : JSString := utf16 s.toList

/-- The user record of the script. -/
structure User where
  id : Int
  first_name : JSString
  last_name : JSString
  username : JSString
  language_code : JSString
  is_premium : Bool
  allows_write_to_pm : Bool

/-- The object literal of lines 16 to 24: the properties in the order they are written. -/
def userObject (u : User) : List (JSString × Prim) :=
  [(lit "id", .num u.id),
   (lit "first_name", .str u.first_name),
   (lit "last_name", .str u.last_name),
   (lit "username", .str u.username),
   (lit "language_code", .str u.language_code),
   (lit "is_premium", .bool u.is_premium),
   (lit "allows_write_to_pm", .bool u.allows_write_to_pm)]

/-- The value stored under `user`: `encodeURIComponent(JSON.stringify({…}))`. -/
def userValue (u : User) : Str :=
  encodeURIComponent (jsonStringify (userObject u))

/-- Whether an integer is a safe integer of ECMAScript, one every `Number` holds exactly
and prints digit by digit. -/
def isSafeInteger (n : Int) : Prop := n.natAbs < 9007199254740992

instance (n : Int) : Decidable (isSafeInteger n) := by
  unfold isSafeInteger; infer_instance

/-! ## `URLSearchParams` -/

/-- The list of name-value pairs a `URLSearchParams` object holds, in insertion order. -/
abbrev Payload := List (Str × Str)

namespace URLSearchParams

/-- The method `entries()`: the pairs in insertion order. -/
def entries (p : Payload) : List (Str × Str) := p

/-- The method `append(name, value)`: one more pair at the end, whatever is there. -/
def append (p : Payload) (name value : Str) : Payload := p ++ [(name, value)]

/-- One `name=value` item of the serialization, name and value form-urlencoded. -/
def serializePair (kv : Str × Str) : Str :=
  formUrlEncode kv.1 ++ '=' :: formUrlEncode kv.2

/-- The method `toString()`: the items in insertion order, joined by `&`. -/
def toString (p : Payload) : Str :=
  ['&'].intercalate (p.map serializePair)

end URLSearchParams

/-! ## The data check string -/

/-- The template literal of line 33: key, `=`, value, nothing encoded. -/
def line (kv : Str × Str) : Str := kv.1 ++ '=' :: kv.2

/-- The comparison `IsLessThan` of ECMAScript on two strings: a proper leading part is
less, otherwise the first differing code units decide. -/
def isLessThan : JSString → JSString → Bool
  | [], [] => false
  | [], _ :: _ => true
  | _ :: _, [] => false
  | x :: xs, y :: ys => if x = y then isLessThan xs ys else decide (x < y)

/-- The default comparator of `Array.prototype.sort` (`SortCompare` without a compare
function) on two strings. -/
def sortCompare (a b : Str) : Int :=
  if isLessThan (utf16 a) (utf16 b) then -1
  else if isLessThan (utf16 b) (utf16 a) then 1
  else 0

/-- The method `sort()` without a compare function: a stable sort by `sortCompare`.
The comparator is a total preorder, so every stable sort gives the same array; the
insertion sort stands for whichever the engine runs. -/
def sort (xs : List Str) : List Str :=
  xs.insertionSort fun a b => sortCompare a b ≤ 0

/-- The lines that are joined into the data check string, lines 32 to 34. -/
def sortedLines (p : Payload) : List Str :=
  sort ((URLSearchParams.entries p).map line)

/-- The method `join('\n')`. -/
def join (xs : List Str) : Str := ['\n'].intercalate xs

/-- The constant `dataCheckString` of lines 32 to 35. -/
def dataCheckString (p : Payload) : Str := join (sortedLines p)

/-! ## SHA-256 and HMAC, as `crypto.createHmac('sha256', key)` computes them -/

namespace Sha256

/-- The round constants of SHA-256. -/
def K : List Nat := [
  0x428a2f98, 0x71374491, 0xb5c0fbcf, 0xe9b5dba5, 0x3956c25b, 0x59f111f1, 0x923f82a4, 0xab1c5ed5,
  0xd807aa98, 0x12835b01, 0x243185be, 0x550c7dc3, 0x72be5d74, 0x80deb1fe, 0x9bdc06a7, 0xc19bf174,
  0xe49b69c1, 0xefbe4786, 0x0fc19dc6, 0x240ca1cc, 0x2de92c6f, 0x4a7484aa, 0x5cb0a9dc, 0x76f988da,
  0x983e5152, 0xa831c66d, 0xb00327c8, 0xbf597fc7, 0xc6e00bf3, 0xd5a79147, 0x06ca6351, 0x14292967,
  0x27b70a85, 0x2e1b2138, 0x4d2c6dfc, 0x53380d13, 0x650a7354, 0x766a0abb, 0x81c2c92e, 0x92722c85,
  0xa2bfe8a1, 0xa81a664b, 0xc24b8b70, 0xc76c51a3, 0xd192e819, 0xd6990624, 0xf40e3585, 0x106aa070,
  0x19a4c116, 0x1e376c08, 0x2748774c, 0x34b0bcb5, 0x391c0cb3, 0x4ed8aa4a, 0x5b9cca4f, 0x682e6ff3,
  0x748f82ee, 0x78a5636f, 0x84c87814, 0x8cc70208, 0x90befffa, 0xa4506ceb, 0xbef9a3f7, 0xc67178f2]

/-- Rotation of a 32-bit word to the right. -/
def rotr (x n : Nat) : Nat := ((x >>> n) ||| (x <<< (32 - n))) % 4294967296

/-- Addition of 32-bit words. -/
def add32 (x y : Nat) : Nat := (x + y) % 4294967296

/-- Complement of a 32-bit word. -/
def not32 (x : Nat) : Nat := 4294967295 - x % 4294967296

def ch (x y z : Nat) : Nat := (x &&& y) ^^^ (not32 x &&& z)

def maj (x y z : Nat) : Nat := (x &&& y) ^^^ (x &&& z) ^^^ (y &&& z)

def bsig0 (x : Nat) : Nat := rotr x 2 ^^^ rotr x 13 ^^^ rotr x 22

def bsig1 (x : Nat) : Nat := rotr x 6 ^^^ rotr x 11 ^^^ rotr x 25

def ssig0 (x : Nat) : Nat := rotr x 7 ^^^ rotr x 18 ^^^ (x >>> 3)

def ssig1 (x : Nat) : Nat := rotr x 17 ^^^ rotr x 19 ^^^ (x >>> 10)

/-- The eight working words. -/
structure State where
  a : Nat
  b : Nat
  c : Nat
  d : Nat
  e : Nat
  f : Nat
  g : Nat
  h : Nat

/-- The initial hash value. -/
def init : State :=
  ⟨0x6a09e667, 0xbb67ae85, 0x3c6ef372, 0xa54ff53a, 0x510e527f, 0x9b05688c, 0x1f83d9ab, 0x5be0cd19⟩

/-- The message schedule, newest word first: `n` more words after those of `w`. -/
def extend : Nat → List Nat → List Nat
  | 0, w => w
  | n + 1, w =>
    extend n
      (add32 (add32 (add32 (ssig1 (w.getD 1 0)) (w.getD 6 0)) (ssig0 (w.getD 14 0)))
        (w.getD 15 0) :: w)

/-- The 64 words of the message schedule of a block of 16 words. -/
def schedule (block : List Nat) : List Nat := (extend 48 block.reverse).reverse

/-- One round of the compression function. -/
def round (s : State) (k w : Nat) : State :=
  let t1 := add32 (add32 (add32 (add32 s.h (bsig1 s.e)) (ch s.e s.f s.g)) k) w
  let t2 := add32 (bsig0 s.a) (maj s.a s.b s.c)
  ⟨add32 t1 t2, s.a, s.b, s.c, add32 s.d t1, s.e, s.f, s.g⟩

/-- The rounds over the constants and the schedule. -/
def rounds : State → List Nat → List Nat → State
  | s, k :: ks, w :: ws => rounds (round s k w) ks ws
  | s, _, _ => s

/-- The compression function on one block. -/
def compress (h : State) (block : List Nat) : State :=
  let s := rounds h K (schedule block)
  ⟨add32 h.a s.a, add32 h.b s.b, add32 h.c s.c, add32 h.d s.d,
   add32 h.e s.e, add32 h.f s.f, add32 h.g s.g, add32 h.h s.h⟩

/-- Big-endian 32-bit words of a byte sequence. -/
def be32 : List Nat → List Nat
  | b0 :: b1 :: b2 :: b3 :: rest => (b0 * 16777216 + b1 * 65536 + b2 * 256 + b3) :: be32 rest
  | _ => []

/-- The `n` big-endian bytes of a number. -/
def toBytes (n : Nat) (x : Nat) : List Nat :=
  (List.range n).reverse.map fun i => (x >>> (8 * i)) % 256

/-- Padding: a one bit, zeros, and the length in bits as 64 bits. -/
def pad (msg : List Nat) : List Nat :=
  msg ++ 128 :: List.replicate ((119 - msg.length % 64) % 64) 0
    ++ toBytes 8 (8 * msg.length % 18446744073709551616)

/-- The compression function over `n` blocks of 16 words. -/
def blocks : Nat → List Nat → State → State
  | 0, _, h => h
  | n + 1, ws, h => blocks n (ws.drop 16) (compress h (ws.take 16))

/-- The 32 bytes of the SHA-256 digest of a byte sequence. -/
def hash (msg : List Nat) : List Nat :=
  let p := pad msg
  let s := blocks (p.length / 64) (be32 p) init
  [s.a, s.b, s.c, s.d, s.e, s.f, s.g, s.h].flatMap (toBytes 4)

end Sha256

/-- HMAC with SHA-256 (block size 64): a key longer than a block is hashed first, the
key is filled with zeros to a block, and the inner and outer pads are `0x36` and `0x5c`. -/
def hmacSha256 (key msg : List Nat) : List Nat :=
  let k0 := if key.length > 64 then Sha256.hash key else key
  let k := k0 ++ List.replicate (64 - k0.length) 0
  Sha256.hash (k.map (· ^^^ 92) ++ Sha256.hash (k.map (· ^^^ 54) ++ msg))

/-- The encoding `'hex'` of `digest`: two lowercase hexadecimal digits a byte. -/
def hexDigest (bs : List Nat) : Str :=
  bs.flatMap fun b => [hexLower.getD (b / 16 % 16) '0', hexLower.getD (b % 16) '0']

/-- The chain `crypto.createHmac('sha256', key).update(msg).digest('hex')` on two
strings, each taken as its UTF-8 bytes. -/
def createHmacDigest (key msg : Str) : Str :=
  hexDigest (hmacSha256 (utf8 key) (utf8 msg))

/-! ## The script -/

/-- The constant `hash` of lines 43 to 45: the key of the HMAC is the string
`fakeBotToken + 'WebAppData'`, the message is the data check string, both as UTF-8. -/
def hash (token : Str) (p : Payload) : Str :=
  createHmacDigest (token ++ "WebAppData".toList) (dataCheckString p)

/-- Line 48: the payload after `initDataRaw.append('hash', hash)`. -/
def signed (token : Str) (p : Payload) : Payload :=
  URLSearchParams.append p "hash".toList (hash token p)

/-- Line 54: the string the script prints, `initDataRaw.toString()`. -/
def output (token : Str) (p : Payload) : Str :=
  URLSearchParams.toString (signed token p)

/-- The constant `fakeBotToken` of line 12. -/
def fakeBotToken : Str := "test_bot_token".toList

/-- The user record of lines 17 to 23. -/
def sampleUser : User where
  id := 99281932
  first_name := lit "Andrew"
  last_name := lit "Rogue"
  username := lit "rogue"
  language_code := lit "en"
  is_premium := true
  allows_write_to_pm := true

/-- The constant `initDataRaw` of lines 15 to 29, before the hash is appended. -/
def initDataRaw : Payload :=
  [("user".toList, userValue sampleUser),
   ("auth_date".toList, "1716922846".toList),
   ("start_param".toList, "debug".toList),
   ("chat_type".toList, "sender".toList),
   ("chat_instance".toList, "8428209589180549439".toList)]

/-! ## The order of the sort -/

/-- The non-strict lexicographic order on the UTF-16 code units of two lines. -/
def codeUnitLe (a b : Str) : Prop :=
  utf16 a = utf16 b ∨ List.Lex (· < ·) (utf16 a) (utf16 b)

/-- The strict lexicographic order on Unicode code points, the order the specification
names. -/
def codePointLt (a b : Str) : Prop :=
  List.Lex (· < ·) (a.map Char.toNat) (b.map Char.toNat)

instance (a b : Str) : Decidable (codePointLt a b) := by
  unfold codePointLt; infer_instance

/-- The sort places `a` before `b`: the two lines differ and `a` comes first even when
the array holds `b` first. -/
def placesBefore (a b : Str) : Prop :=
  a ≠ b ∧ sort [b, a] = [a, b]

instance (a b : Str) : Decidable (placesBefore a b) := by
  unfold placesBefore; infer_instance

/-- The derived key as the specification words it: HMAC-SHA256 keyed by the secret
token over the string `WebAppData`. -/
def specDerivedKey (token : Str) : List Nat :=
  hmacSha256 (utf8 token) (utf8 "WebAppData".toList)

/-- The signature as the specification words it: the lowercase hexadecimal digits of
HMAC-SHA256 keyed by the derived key over the canonical string. -/
def specSignature (token canonical : Str) : Str :=
  hexDigest (hmacSha256 (specDerivedKey token) (utf8 canonical))

/-- The text after `name=` in the first of the pieces that starts with `name=`. -/
def valueAfter (name : Str) (pieces : List Str) : Option Str :=
  (pieces.find? fun l => (name ++ ['=']).isPrefixOf l).map fun l => l.drop (name.length + 1)

/-- The string literal of line 43 that is joined to the token. -/
def webAppData : Str := "WebAppData".toList

/-- The run of the script as a whole, with `none` for a run that ends in an error: no
statement of the script looks at the token and none of its calls throws on these inputs,
so every run reaches line 54 and prints. -/
def run (token : Str) (p : Payload) : Option Str := some (output token p)

/-- The builder as the specification words it: an empty secret token is a configuration
error, and there is no signature and no output. -/
def specRun (token : Str) (p : Payload) : Option Str :=
  if token = [] then none else some (output token p)

/-- The name and the value read back from a line: what stands before the first `=` and
what stands after it. -/
def unline (l : Str) : Str × Str :=
  (l.takeWhile (· ≠ '='), (l.dropWhile (· ≠ '=')).drop 1)

/-! ## Reading the printed string back

The script has no reader; these are the decoders of the URL standard that a receiver of
the printed string runs (`application/x-www-form-urlencoded` parsing, percent-decoding,
UTF-8 decoding without BOM). -/

/-- The value of a byte that is an ASCII hexadecimal digit, of either case. -/
def hexValue (b : Nat) : Option Nat :=
  if 48 ≤ b ∧ b ≤ 57 then some (b - 48)
  else if 65 ≤ b ∧ b ≤ 70 then some (b - 55)
  else if 97 ≤ b ∧ b ≤ 102 then some (b - 87)
  else none

/-- Percent-decoding of a byte sequence: `%` and two hexadecimal digits give one byte,
every other byte stands for itself. -/
def percentDecode : List Nat → List Nat
  | [] => []
  | [b] => [b]
  | [b, h] => [b, h]
  | b :: h :: l :: rest =>
    if b = 37 ∧ (hexValue h).isSome ∧ (hexValue l).isSome then
      (16 * (hexValue h).getD 0 + (hexValue l).getD 0) :: percentDecode rest
    else b :: percentDecode (h :: l :: rest)

/-- The character U+FFFD that a decoder writes for a malformed sequence. -/
def replacementChar : Char := Char.ofNat 65533

/-- UTF-8 decoding without BOM, with one unit of fuel for each byte: a well-formed
sequence gives its scalar value; a malformed one gives U+FFFD for its longest well-formed
start, and decoding goes on at the byte that broke it. -/
def utf8DecodeAux : Nat → List Nat → Str
  | 0, _ => []
  | _ + 1, [] => []
  | n + 1, b0 :: rest =>
    if b0 < 128 then Char.ofNat b0 :: utf8DecodeAux n rest
    else if 194 ≤ b0 ∧ b0 ≤ 223 then
      if 128 ≤ rest.getD 0 0 ∧ rest.getD 0 0 ≤ 191 then
        Char.ofNat ((b0 - 192) * 64 + (rest.getD 0 0 - 128)) :: utf8DecodeAux n (rest.drop 1)
      else replacementChar :: utf8DecodeAux n rest
    else if 224 ≤ b0 ∧ b0 ≤ 239 then
      if ¬ ((if b0 = 224 then 160 else 128) ≤ rest.getD 0 0
          ∧ rest.getD 0 0 ≤ (if b0 = 237 then 159 else 191)) then
        replacementChar :: utf8DecodeAux n rest
      else if ¬ (128 ≤ rest.getD 1 0 ∧ rest.getD 1 0 ≤ 191) then
        replacementChar :: utf8DecodeAux n (rest.drop 1)
      else
        Char.ofNat ((b0 - 224) * 4096 + (rest.getD 0 0 - 128) * 64 + (rest.getD 1 0 - 128))
          :: utf8DecodeAux n (rest.drop 2)
    else if 240 ≤ b0 ∧ b0 ≤ 244 then
      if ¬ ((if b0 = 240 then 144 else 128) ≤ rest.getD 0 0
          ∧ rest.getD 0 0 ≤ (if b0 = 244 then 143 else 191)) then
        replacementChar :: utf8DecodeAux n rest
      else if ¬ (128 ≤ rest.getD 1 0 ∧ rest.getD 1 0 ≤ 191) then
        replacementChar :: utf8DecodeAux n (rest.drop 1)
      else if ¬ (128 ≤ rest.getD 2 0 ∧ rest.getD 2 0 ≤ 191) then
        replacementChar :: utf8DecodeAux n (rest.drop 2)
      else
        Char.ofNat ((b0 - 240) * 262144 + (rest.getD 0 0 - 128) * 4096
            + (rest.getD 1 0 - 128) * 64 + (rest.getD 2 0 - 128))
          :: utf8DecodeAux n (rest.drop 3)
    else replacementChar :: utf8DecodeAux n rest

/-- UTF-8 decoding without BOM of a byte sequence. -/
def utf8Decode (bs : List Nat) : Str := utf8DecodeAux bs.length bs

/-- Percent-decoding of a string: its UTF-8 bytes are percent-decoded and the result is
UTF-8 decoded. -/
def percentDecodeString (s : Str) : Str :=
  utf8Decode (percentDecode (utf8 s))

/-- The byte `+` read as a space, every other byte as itself. -/
def plusToSpace (b : Nat) : Nat := if b = 43 then 32 else b

/-- Form-urlencoded decoding of one name or value: `+` becomes a space, then the bytes
are percent-decoded and UTF-8 decoded. -/
def formUrlDecode (s : Str) : Str :=
  utf8Decode (percentDecode ((utf8 s).map plusToSpace))

/-- The `application/x-www-form-urlencoded` parser: the string is split on `&`, empty
pieces are skipped, each piece is split at its first `=`, and name and value are
decoded. -/
def formUrlParse (s : Str) : Payload :=
  ((s.splitOn '&').filter fun item => decide (item ≠ [])).map fun item =>
    (formUrlDecode (unline item).1, formUrlDecode (unline item).2)

/-- The non-strict lexicographic order on Unicode code points. -/
def codePointLe (a b : Str) : Prop :=
  a = b ∨ codePointLt a b

instance (a b : Str) : Decidable (codePointLe a b) := by
  unfold codePointLe; infer_instance

/-- The non-strict lexicographic order on UTF-8 bytes. -/
def utf8Le (a b : Str) : Prop :=
  a = b ∨ List.Lex (· < ·) (utf8 a) (utf8 b)

/-! ## Lemmas -/

theorem isLessThan_iff_lex (x y : JSString) :
    isLessThan x y = true ↔ List.Lex (· < ·) x y := by
  induction x generalizing y with
  | nil => cases y <;> simp [isLessThan, List.Lex.not_nil_right, List.Lex.nil]
  | cons a x ih =>
    cases y with
    | nil => simp [isLessThan, List.Lex.not_nil_right]
    | cons b y =>
      simp only [isLessThan]
      by_cases hab : a = b
      · subst hab
        simp [ih, List.Lex.cons_iff]
      · simp only [hab, if_false, decide_eq_true_eq]
        constructor
        · intro h
          exact List.Lex.rel h
        · intro h
          cases h with
          | cons h => exact absurd rfl hab
          | rel h => exact h

theorem lex_asymm {x y : JSString} (h : List.Lex (· < ·) x y) : ¬ List.Lex (· < ·) y x :=
  fun h2 => (List.Lex.isAsymm (· < ·)).asymm x y h h2

theorem lex_trichotomy (x y : JSString) :
    List.Lex (· < ·) x y ∨ x = y ∨ List.Lex (· < ·) y x :=
  (List.Lex.isTrichotomous (· < ·)).trichotomous x y

theorem lex_trans {x y z : JSString} (h1 : List.Lex (· < ·) x y)
    (h2 : List.Lex (· < ·) y z) : List.Lex (· < ·) x z :=
  (inferInstance : IsTrans (List Nat) (List.Lex (· < ·))).trans x y z h1 h2

theorem sortCompare_le_iff (a b : Str) :
    sortCompare a b ≤ 0 ↔ ¬ List.Lex (· < ·) (utf16 b) (utf16 a) := by
  unfold sortCompare
  by_cases h1 : isLessThan (utf16 a) (utf16 b) = true
  · have h := (isLessThan_iff_lex _ _).1 h1
    simp [h1, lex_asymm h]
  · by_cases h2 : isLessThan (utf16 b) (utf16 a) = true
    · have h := (isLessThan_iff_lex _ _).1 h2
      simp [h1, h2, h]
    · have h : ¬ List.Lex (· < ·) (utf16 b) (utf16 a) := fun h => h2 ((isLessThan_iff_lex _ _).2 h)
      simp [h1, h2, h]

theorem sortCompare_le_iff_codeUnitLe (a b : Str) :
    sortCompare a b ≤ 0 ↔ codeUnitLe a b := by
  rw [sortCompare_le_iff]
  unfold codeUnitLe
  constructor
  · intro h
    rcases lex_trichotomy (utf16 a) (utf16 b) with h1 | h1 | h1
    · exact Or.inr h1
    · exact Or.inl h1
    · exact absurd h1 h
  · rintro (h | h)
    · rw [h]
      exact fun h2 => lex_asymm h2 h2
    · exact lex_asymm h

theorem sortCompare_total (a b : Str) : sortCompare a b ≤ 0 ∨ sortCompare b a ≤ 0 := by
  rw [sortCompare_le_iff, sortCompare_le_iff]
  by_cases h : List.Lex (· < ·) (utf16 b) (utf16 a)
  · exact Or.inr (lex_asymm h)
  · exact Or.inl h

theorem sortCompare_trans (a b c : Str) (h1 : sortCompare a b ≤ 0)
    (h2 : sortCompare b c ≤ 0) : sortCompare a c ≤ 0 := by
  rw [sortCompare_le_iff_codeUnitLe] at *
  unfold codeUnitLe at *
  rcases h1 with h1 | h1 <;> rcases h2 with h2 | h2
  · exact Or.inl (h1.trans h2)
  · exact Or.inr (h1 ▸ h2)
  · exact Or.inr (h2 ▸ h1)
  · exact Or.inr (lex_trans h1 h2)

theorem utf16EncodeCodePoint_inj (c d : Char)
    (h : ∃ s t, utf16EncodeCodePoint c.toNat ++ s = utf16EncodeCodePoint d.toNat ++ t) :
    c = d := by
  obtain ⟨s, t, h⟩ := h
  have hc : c.toNat < 55296 ∨ (57343 < c.toNat ∧ c.toNat < 1114112) := c.valid
  have hd : d.toNat < 55296 ∨ (57343 < d.toNat ∧ d.toNat < 1114112) := d.valid
  have key : c.toNat = d.toNat := by
    unfold utf16EncodeCodePoint at h
    split_ifs at h with h1 h2 h2
    · simpa using (List.cons.inj h).1
    · have := (List.cons.inj h).1
      omega
    · have := (List.cons.inj h).1
      omega
    · have e1 := (List.cons.inj h).1
      have e2 := (List.cons.inj (List.cons.inj h).2).1
      omega
  exact Char.ext (UInt32.ext key)

theorem utf16_injective : ∀ a b : Str, utf16 a = utf16 b → a = b := by
  intro a
  induction a with
  | nil =>
    intro b h
    cases b with
    | nil => rfl
    | cons d b =>
      exfalso
      simp only [utf16, List.flatMap_nil, List.flatMap_cons] at h
      unfold utf16EncodeCodePoint at h
      split_ifs at h <;> simp at h
  | cons c a ih =>
    intro b h
    cases b with
    | nil =>
      exfalso
      simp only [utf16, List.flatMap_nil, List.flatMap_cons] at h
      unfold utf16EncodeCodePoint at h
      split_ifs at h <;> simp at h
    | cons d b =>
      have hcd : c = d := utf16EncodeCodePoint_inj c d ⟨utf16 a, utf16 b, by
        simpa only [utf16, List.flatMap_cons] using h⟩
      subst hcd
      simp only [utf16, List.flatMap_cons] at h
      rw [ih b (List.append_cancel_left h)]

theorem sortCompare_antisymm (a b : Str) (h1 : sortCompare a b ≤ 0)
    (h2 : sortCompare b a ≤ 0) : a = b := by
  rw [sortCompare_le_iff] at h1 h2
  rcases lex_trichotomy (utf16 a) (utf16 b) with h | h | h
  · exact absurd h h2
  · exact utf16_injective a b h
  · exact absurd h h1

theorem sort_perm (xs : List Str) : (sort xs).Perm xs :=
  List.perm_insertionSort _ xs

theorem sort_sorted (xs : List Str) :
    (sort xs).Sorted fun a b => sortCompare a b ≤ 0 := by
  haveI : IsTotal Str (fun a b => sortCompare a b ≤ 0) := ⟨sortCompare_total⟩
  haveI : IsTrans Str (fun a b => sortCompare a b ≤ 0) := ⟨sortCompare_trans⟩
  exact List.sorted_insertionSort _ xs

theorem sort_eq_of_perm {xs ys : List Str} (h : xs.Perm ys) : sort xs = sort ys := by
  haveI : IsAntisymm Str (fun a b => sortCompare a b ≤ 0) := ⟨sortCompare_antisymm⟩
  exact List.eq_of_perm_of_sorted ((sort_perm xs).trans (h.trans (sort_perm ys).symm))
    (sort_sorted xs) (sort_sorted ys)

theorem utf8_append (a b : Str) : utf8 (a ++ b) = utf8 a ++ utf8 b := by
  simp [utf8, List.flatMap_append]

theorem hexLower_getD_mem (n : Nat) : hexLower.getD (n % 16) '0' ∈ hexLower := by
  have h : n % 16 < 16 := Nat.mod_lt _ (by decide)
  interval_cases (n % 16) <;> simp [hexLower]

theorem hexDigest_length (bs : List Nat) : (hexDigest bs).length = 2 * bs.length := by
  induction bs with
  | nil => rfl
  | cons b bs ih =>
    simp only [hexDigest, List.flatMap_cons, List.length_append, List.length_cons,
      List.length_nil] at ih ⊢
    omega

theorem hexDigest_mem (bs : List Nat) : ∀ c ∈ hexDigest bs, c ∈ hexLower := by
  intro c hc
  simp only [hexDigest, List.mem_flatMap, List.mem_cons, List.mem_singleton] at hc
  obtain ⟨b, _, h | h | h⟩ := hc
  · rw [h]
    exact hexLower_getD_mem _
  · rw [h]
    exact hexLower_getD_mem _
  · cases h

theorem sha256_hash_length (msg : List Nat) : (Sha256.hash msg).length = 32 := by
  simp [Sha256.hash, Sha256.toBytes]

theorem hmacSha256_length (key msg : List Nat) : (hmacSha256 key msg).length = 32 := by
  unfold hmacSha256
  exact sha256_hash_length _

theorem formUnescaped_ne_space (c : Char) (h : formUnescaped c = true) : c ≠ ' ' := by
  rintro rfl
  revert h
  decide

theorem formUrlEncode_of_unescaped (s : Str) (h : ∀ c ∈ s, formUnescaped c = true) :
    formUrlEncode s = s := by
  induction s with
  | nil => rfl
  | cons c s ih =>
    have hc := h c (List.mem_cons_self c s)
    have hs := ih fun d hd => h d (List.mem_cons_of_mem c hd)
    unfold formUrlEncode at hs ⊢
    rw [List.flatMap_cons, hs]
    simp [hc, formUnescaped_ne_space c hc]

theorem hexLower_unescaped : ∀ c ∈ hexLower, formUnescaped c = true := by
  decide

theorem formUrlEncode_hash (token : Str) (p : Payload) :
    formUrlEncode (hash token p) = hash token p :=
  formUrlEncode_of_unescaped _ fun c hc =>
    hexLower_unescaped c (hexDigest_mem _ c hc)

theorem mem_sortedLines (p : Payload) (l : Str) :
    l ∈ sortedLines p ↔ ∃ kv ∈ p, line kv = l := by
  unfold sortedLines URLSearchParams.entries
  rw [(sort_perm _).mem_iff, List.mem_map]

theorem hash_eq_prefix_line (kv : Str × Str) :
    "hash=".toList <+: line kv ↔ kv.1 = "hash".toList ∨ "hash=".toList <+: kv.1 := by
  obtain ⟨k, v⟩ := kv
  have e1 : "hash=".toList = ['h', 'a', 's', 'h', '='] := rfl
  have e2 : "hash".toList = ['h', 'a', 's', 'h'] := rfl
  rw [e1, e2]
  unfold line
  rcases k with _ | ⟨c1, _ | ⟨c2, _ | ⟨c3, _ | ⟨c4, _ | ⟨c5, k⟩⟩⟩⟩⟩ <;>
    (simp [List.cons_prefix_cons]; try tauto)

theorem utf8EncodeCodePoint_ne_nil (n : Nat) : utf8EncodeCodePoint n ≠ [] := by
  unfold utf8EncodeCodePoint
  split_ifs <;> simp

theorem percentEncode_shape (n : Nat) :
    ∃ a b t, (utf8EncodeCodePoint n).flatMap percentEncodeByte = '%' :: a :: b :: t := by
  cases h : utf8EncodeCodePoint n with
  | nil => exact absurd h (utf8EncodeCodePoint_ne_nil n)
  | cons x xs => exact ⟨_, _, _, rfl⟩

theorem formUrlEncode_cons (c : Char) (s : Str) :
    formUrlEncode (c :: s) = formUrlEncode [c] ++ formUrlEncode s := by
  simp [formUrlEncode]

theorem formUrlEncode_append (a b : Str) :
    formUrlEncode (a ++ b) = formUrlEncode a ++ formUrlEncode b := by
  simp [formUrlEncode, List.flatMap_append]

theorem formUrlEncode_singleton (c : Char) :
    formUrlEncode [c] = if c = ' ' then ['+'] else if formUnescaped c = true then [c]
      else (utf8EncodeCodePoint c.toNat).flatMap percentEncodeByte := by
  simp [formUrlEncode]

theorem formUrlEncode_length_ge (s : Str) : s.length ≤ (formUrlEncode s).length := by
  induction s with
  | nil => simp
  | cons c s ih =>
    rw [formUrlEncode_cons, List.length_append, List.length_cons]
    have h1 : 1 ≤ (formUrlEncode [c]).length := by
      rw [formUrlEncode_singleton]
      split_ifs
      · simp
      · simp
      · obtain ⟨a, b, t, h⟩ := percentEncode_shape c.toNat
        rw [h]
        simp
    omega

theorem formUrlEncode_eq_self (s : Str) (h : formUrlEncode s = s) :
    ∀ c ∈ s, formUnescaped c = true := by
  induction s with
  | nil => simp
  | cons c s ih =>
    rw [formUrlEncode_cons, formUrlEncode_singleton] at h
    have hlen := formUrlEncode_length_ge s
    split_ifs at h with h1 h2
    · exfalso
      subst h1
      have := (List.cons.inj h).1
      revert this
      decide
    · have hs : formUrlEncode s = s := (List.cons.inj h).2
      intro d hd
      rcases List.mem_cons.1 hd with rfl | hd
      · exact h2
      · exact ih hs d hd
    · exfalso
      obtain ⟨a, b, t, ht⟩ := percentEncode_shape c.toNat
      rw [ht] at h
      have h3 : a :: b :: t ++ formUrlEncode s = s := (List.cons.inj h).2
      have h4 := congrArg List.length h3
      rw [List.length_append, List.length_cons, List.length_cons] at h4
      omega

theorem formUrlEncode_eq_self_iff (s : Str) :
    formUrlEncode s = s ↔ ∀ c ∈ s, formUnescaped c = true :=
  ⟨formUrlEncode_eq_self s, formUrlEncode_of_unescaped s⟩

theorem output_eq (token : Str) (p : Payload) :
    output token p = ['&'].intercalate
      (p.map URLSearchParams.serializePair ++ ["hash=".toList ++ hash token p]) := by
  unfold output signed URLSearchParams.toString URLSearchParams.append
  rw [List.map_append, List.map_singleton]
  unfold URLSearchParams.serializePair
  simp only []
  rw [formUrlEncode_hash]
  rfl

theorem intercalate_cons_cons (sep x y : Str) (l : List Str) :
    sep.intercalate (x :: y :: l) = x ++ sep ++ sep.intercalate (y :: l) := by
  simp [List.intercalate, List.intersperse]

theorem intercalate_cons_of_ne_nil (sep x : Str) (l : List Str) (h : l ≠ []) :
    sep.intercalate (x :: l) = x ++ sep ++ sep.intercalate l := by
  cases l with
  | nil => exact absurd rfl h
  | cons y l => exact intercalate_cons_cons sep x y l

theorem quoteJSONString_keys :
    quoteJSONString (lit "id") = "\"id\"".toList ∧
      quoteJSONString (lit "first_name") = "\"first_name\"".toList ∧
      quoteJSONString (lit "last_name") = "\"last_name\"".toList ∧
      quoteJSONString (lit "username") = "\"username\"".toList ∧
      quoteJSONString (lit "language_code") = "\"language_code\"".toList ∧
      quoteJSONString (lit "is_premium") = "\"is_premium\"".toList ∧
      quoteJSONString (lit "allows_write_to_pm") = "\"allows_write_to_pm\"".toList := by
  decide

theorem lex_cons_cons (x y : Nat) (l1 l2 : List Nat) :
    List.Lex (· < ·) (x :: l1) (y :: l2) ↔ x < y ∨ (x = y ∧ List.Lex (· < ·) l1 l2) := by
  constructor
  · intro h
    cases h with
    | cons h => exact Or.inr ⟨rfl, h⟩
    | rel h => exact Or.inl h
  · rintro (h | ⟨rfl, h⟩)
    · exact List.Lex.rel h
    · exact List.Lex.cons h

theorem lex_irrefl (x : JSString) : ¬ List.Lex (· < ·) x x :=
  fun h => lex_asymm h h

theorem char_toNat_lt (c : Char) : c.toNat < 1114112 := by
  have hc : c.toNat < 55296 ∨ (57343 < c.toNat ∧ c.toNat < 1114112) := c.valid
  omega

theorem char_toNat_inj (c d : Char) (h : c.toNat = d.toNat) : c = d :=
  Char.ext (UInt32.ext h)

theorem map_toNat_inj : ∀ a b : Str, a.map Char.toNat = b.map Char.toNat → a = b
  | [], [], _ => rfl
  | [], _ :: _, h => by simp at h
  | _ :: _, [], h => by simp at h
  | c :: a, d :: b, h => by
    simp only [List.map_cons, List.cons.injEq] at h
    rw [char_toNat_inj c d h.1, map_toNat_inj a b h.2]

theorem utf8EncodeCodePoint_lex (n m : Nat) (h : n < m) (hm : m < 1114112)
    (X Y : List Nat) :
    List.Lex (· < ·) (utf8EncodeCodePoint n ++ X) (utf8EncodeCodePoint m ++ Y) := by
  unfold utf8EncodeCodePoint
  by_cases e1 : n / 262144 = m / 262144 <;> by_cases e2 : n / 4096 = m / 4096 <;>
    by_cases e3 : n / 64 = m / 64 <;> split_ifs <;>
    simp only [List.cons_append, List.nil_append, lex_cons_cons] <;>
    first
      | (exfalso; omega)
      | exact Or.inl (by omega)
      | exact Or.inr ⟨by omega, Or.inl (by omega)⟩
      | exact Or.inr ⟨by omega, Or.inr ⟨by omega, Or.inl (by omega)⟩⟩
      | exact Or.inr ⟨by omega, Or.inr ⟨by omega, Or.inr ⟨by omega, Or.inl (by omega)⟩⟩⟩

theorem utf8_lex_of_codePointLt :
    ∀ a b : Str, codePointLt a b → List.Lex (· < ·) (utf8 a) (utf8 b)
  | [], [], h => absurd h (List.Lex.not_nil_right _ _)
  | [], d :: b, _ => by
    simp only [utf8, List.flatMap_cons, List.flatMap_nil]
    cases hd : utf8EncodeCodePoint d.toNat with
    | nil => exact absurd hd (utf8EncodeCodePoint_ne_nil _)
    | cons x xs => exact List.Lex.nil
  | _ :: _, [], h => by cases h
  | c :: a, d :: b, h => by
    unfold codePointLt at h
    simp only [List.map_cons, lex_cons_cons] at h
    simp only [utf8, List.flatMap_cons]
    rcases h with h | ⟨h, h2⟩
    · exact utf8EncodeCodePoint_lex _ _ h (char_toNat_lt d) _ _
    · rw [h]
      exact List.Lex.append_left _ (utf8_lex_of_codePointLt a b h2) _

theorem codePointLt_iff_utf8 (a b : Str) :
    codePointLt a b ↔ List.Lex (· < ·) (utf8 a) (utf8 b) := by
  refine ⟨utf8_lex_of_codePointLt a b, fun h => ?_⟩
  rcases lex_trichotomy (a.map Char.toNat) (b.map Char.toNat) with h1 | h1 | h1
  · exact h1
  · rw [map_toNat_inj a b h1] at h
    exact absurd h (lex_irrefl _)
  · exact absurd h (lex_asymm (utf8_lex_of_codePointLt b a h1))

theorem utf16_of_bmp (a : Str) (h : ∀ c ∈ a, c.toNat < 65536) :
    utf16 a = a.map Char.toNat := by
  induction a with
  | nil => rfl
  | cons c a ih =>
    have hc := h c (List.mem_cons_self c a)
    have ha := ih fun d hd => h d (List.mem_cons_of_mem c hd)
    unfold utf16 at ha ⊢
    rw [List.flatMap_cons, ha, List.map_cons]
    simp [utf16EncodeCodePoint, hc]

theorem placesBefore_iff_lex (a b : Str) :
    placesBefore a b ↔ List.Lex (· < ·) (utf16 a) (utf16 b) := by
  unfold placesBefore sort
  simp only [List.insertionSort, List.orderedInsert]
  by_cases hr : sortCompare b a ≤ 0
  · have hn := (sortCompare_le_iff b a).1 hr
    simp only [hr, if_true]
    constructor
    · rintro ⟨hne, he⟩
      exact absurd (List.cons.inj he).1.symm hne
    · intro hl
      exact absurd hl hn
  · have hl : List.Lex (· < ·) (utf16 a) (utf16 b) := by
      by_contra hc
      exact hr ((sortCompare_le_iff b a).2 hc)
    have hne : a ≠ b := by
      rintro rfl
      exact lex_irrefl _ hl
    simp [hr, hl, hne]

theorem intercalate_count_newline (ls : List Str) (h : ∀ l ∈ ls, '\n' ∉ l) :
    (['\n'].intercalate ls).count '\n' = ls.length - 1 := by
  induction ls with
  | nil => rfl
  | cons x ls ih =>
    have hx : x.count '\n' = 0 := List.count_eq_zero.2 (h x (List.mem_cons_self x ls))
    have hls := ih fun l hl => h l (List.mem_cons_of_mem x hl)
    cases ls with
    | nil => simpa [List.intercalate] using hx
    | cons y ls =>
      rw [intercalate_cons_cons, List.count_append, List.count_append, hx, hls]
      simp
      omega

theorem intercalate_head (ls : List Str) (hne : ls ≠ []) (h : ∀ l ∈ ls, l ≠ [] ∧ '\n' ∉ l) :
    ∃ c rest, ['\n'].intercalate ls = c :: rest ∧ c ≠ '\n' := by
  cases ls with
  | nil => exact absurd rfl hne
  | cons x ls =>
    obtain ⟨hx, hn⟩ := h x (List.mem_cons_self x ls)
    cases x with
    | nil => exact absurd rfl hx
    | cons c x =>
      have hc : c ≠ '\n' := fun e => hn (e ▸ List.mem_cons_self c x)
      cases ls with
      | nil => exact ⟨c, x, by simp [List.intercalate], hc⟩
      | cons y ls =>
        exact ⟨c, _, by rw [intercalate_cons_cons]; rfl, hc⟩

theorem intercalate_getLast (ls : List Str) (hne : ls ≠ [])
    (h : ∀ l ∈ ls, l ≠ [] ∧ '\n' ∉ l) :
    ∃ c, (['\n'].intercalate ls).getLast? = some c ∧ c ≠ '\n' := by
  induction ls with
  | nil => exact absurd rfl hne
  | cons x ls ih =>
    cases ls with
    | nil =>
      obtain ⟨hx, hn⟩ := h x (List.mem_cons_self x [])
      have e : ['\n'].intercalate [x] = x := by simp [List.intercalate]
      rw [e]
      refine ⟨x.getLast hx, List.getLast?_eq_getLast _ hx, fun e2 => hn ?_⟩
      rw [← e2]
      exact List.getLast_mem hx
    | cons y ls =>
      obtain ⟨c, hc, hcn⟩ := ih (by simp) fun l hl => h l (List.mem_cons_of_mem x hl)
      refine ⟨c, ?_, hcn⟩
      rw [intercalate_cons_cons]
      have hne2 : ['\n'].intercalate (y :: ls) ≠ [] := by
        intro e
        rw [e] at hc
        simp at hc
      rw [List.getLast?_append_of_ne_nil _ hne2]
      exact hc

theorem line_no_newline (kv : Str × Str) (h : '\n' ∉ kv.1 ∧ '\n' ∉ kv.2) :
    line kv ≠ [] ∧ '\n' ∉ line kv := by
  unfold line
  refine ⟨by simp, ?_⟩
  intro hm
  rcases List.mem_append.1 hm with h1 | h1
  · exact h.1 h1
  · rcases List.mem_cons.1 h1 with h2 | h2
    · revert h2
      decide
    · exact h.2 h2

theorem sortedLines_no_newline (p : Payload) (h : ∀ kv ∈ p, '\n' ∉ kv.1 ∧ '\n' ∉ kv.2) :
    ∀ l ∈ sortedLines p, l ≠ [] ∧ '\n' ∉ l := by
  intro l hl
  obtain ⟨kv, hkv, rfl⟩ := (mem_sortedLines p l).1 hl
  exact line_no_newline kv (h kv hkv)

theorem sortedLines_length (p : Payload) : (sortedLines p).length = p.length := by
  unfold sortedLines URLSearchParams.entries
  rw [(sort_perm _).length_eq, List.length_map]

theorem takeWhile_ne_eq_append (k v : Str) (h : '=' ∉ k) :
    (k ++ '=' :: v).takeWhile (· ≠ '=') = k := by
  induction k with
  | nil => simp
  | cons c k ih =>
    have hc : c ≠ '=' := fun e => h (e ▸ List.mem_cons_self c k)
    have hk : '=' ∉ k := fun hm => h (List.mem_cons_of_mem c hm)
    rw [List.cons_append, List.takeWhile_cons_of_pos (by simpa using hc), ih hk]

theorem dropWhile_ne_eq_append (k v : Str) (h : '=' ∉ k) :
    (k ++ '=' :: v).dropWhile (· ≠ '=') = '=' :: v := by
  induction k with
  | nil => simp
  | cons c k ih =>
    have hc : c ≠ '=' := fun e => h (e ▸ List.mem_cons_self c k)
    have hk : '=' ∉ k := fun hm => h (List.mem_cons_of_mem c hm)
    rw [List.cons_append, List.dropWhile_cons_of_pos (by simpa using hc), ih hk]

theorem unline_line (kv : Str × Str) (h : '=' ∉ kv.1) : unline (line kv) = kv := by
  unfold unline line
  rw [takeWhile_ne_eq_append _ _ h, dropWhile_ne_eq_append _ _ h]
  rfl

theorem map_unline_line (p : Payload) (h : ∀ kv ∈ p, '=' ∉ kv.1) :
    (p.map line).map unline = p := by
  rw [List.map_map]
  conv_rhs => rw [← List.map_id p]
  exact List.map_congr_left fun kv hkv => unline_line kv (h kv hkv)

theorem sortedLines_eq_of_join_eq (p q : Payload)
    (hp : ∀ kv ∈ p, '\n' ∉ kv.1 ∧ '\n' ∉ kv.2) (hq : ∀ kv ∈ q, '\n' ∉ kv.1 ∧ '\n' ∉ kv.2)
    (h : dataCheckString p = dataCheckString q) : sortedLines p = sortedLines q := by
  have h1 := sortedLines_no_newline p hp
  have h2 := sortedLines_no_newline q hq
  unfold dataCheckString join at h
  by_cases e1 : sortedLines p = []
  · by_cases e2 : sortedLines q = []
    · rw [e1, e2]
    · exfalso
      obtain ⟨c, rest, hc, _⟩ := intercalate_head _ e2 h2
      rw [e1, hc] at h
      simp [List.intercalate] at h
  · by_cases e2 : sortedLines q = []
    · exfalso
      obtain ⟨c, rest, hc, _⟩ := intercalate_head _ e1 h1
      rw [e2, hc] at h
      simp [List.intercalate] at h
    · rw [← List.splitOn_intercalate (sortedLines p) '\n' (fun l hl => (h1 l hl).2) e1,
        ← List.splitOn_intercalate (sortedLines q) '\n' (fun l hl => (h2 l hl).2) e2, h]

theorem char_valid (c : Char) : c.toNat < 55296 ∨ (57343 < c.toNat ∧ c.toNat < 1114112) :=
  c.valid

theorem char_ofNat_toNat (c : Char) (n : Nat) (h : n = c.toNat) : Char.ofNat n = c := by
  subst h
  exact Char.ofNat_toNat c

theorem utf8DecodeAux_encode (c : Char) (n : Nat) (Y : List Nat) :
    utf8DecodeAux (n + 1) (utf8EncodeCodePoint c.toNat ++ Y) = c :: utf8DecodeAux n Y := by
  have hv := char_valid c
  unfold utf8EncodeCodePoint
  split_ifs with h1 h2 h3
  · simp only [List.cons_append, List.nil_append]
    simp only [utf8DecodeAux, h1, if_true]
    rw [char_ofNat_toNat c _ rfl]
  · have a1 : ¬ (192 + c.toNat / 64 < 128) := by omega
    have a2 : 194 ≤ 192 + c.toNat / 64 ∧ 192 + c.toNat / 64 ≤ 223 := by omega
    have a3 : 128 ≤ 128 + c.toNat % 64 ∧ 128 + c.toNat % 64 ≤ 191 := by omega
    simp only [List.cons_append, List.nil_append]
    simp only [utf8DecodeAux, List.getD_cons_zero, a1, a2,
      a3, if_true, if_false, and_self, List.drop_succ_cons, List.drop_zero]
    rw [char_ofNat_toNat c _ (by omega)]
  · have a1 : ¬ (224 + c.toNat / 4096 < 128) := by omega
    have a2 : ¬ (194 ≤ 224 + c.toNat / 4096 ∧ 224 + c.toNat / 4096 ≤ 223) := by omega
    have a3 : 224 ≤ 224 + c.toNat / 4096 ∧ 224 + c.toNat / 4096 ≤ 239 := by omega
    have a4 : (if 224 + c.toNat / 4096 = 224 then 160 else 128) ≤ 128 + c.toNat / 64 % 64
        ∧ 128 + c.toNat / 64 % 64 ≤ (if 224 + c.toNat / 4096 = 237 then 159 else 191) := by
      split_ifs <;> omega
    have a5 : 128 ≤ 128 + c.toNat % 64 ∧ 128 + c.toNat % 64 ≤ 191 := by omega
    simp only [List.cons_append, List.nil_append]
    simp only [utf8DecodeAux, List.getD_cons_zero,
      List.getD_cons_succ, a1, a2, a3, a4, a5, if_true, if_false, and_self, not_true_eq_false,
      List.drop_succ_cons, List.drop_zero]
    rw [char_ofNat_toNat c _ (by omega)]
  · have a1 : ¬ (240 + c.toNat / 262144 % 8 < 128) := by omega
    have a2 : ¬ (194 ≤ 240 + c.toNat / 262144 % 8 ∧ 240 + c.toNat / 262144 % 8 ≤ 223) := by
      omega
    have a3 : ¬ (224 ≤ 240 + c.toNat / 262144 % 8 ∧ 240 + c.toNat / 262144 % 8 ≤ 239) := by
      omega
    have a4 : 240 ≤ 240 + c.toNat / 262144 % 8 ∧ 240 + c.toNat / 262144 % 8 ≤ 244 := by omega
    have a5 : (if 240 + c.toNat / 262144 % 8 = 240 then 144 else 128)
          ≤ 128 + c.toNat / 4096 % 64
        ∧ 128 + c.toNat / 4096 % 64
          ≤ (if 240 + c.toNat / 262144 % 8 = 244 then 143 else 191) := by
      split_ifs <;> omega
    have a6 : 128 ≤ 128 + c.toNat / 64 % 64 ∧ 128 + c.toNat / 64 % 64 ≤ 191 := by omega
    have a7 : 128 ≤ 128 + c.toNat % 64 ∧ 128 + c.toNat % 64 ≤ 191 := by omega
    simp only [List.cons_append, List.nil_append]
    simp only [utf8DecodeAux, List.getD_cons_zero,
      List.getD_cons_succ, a1, a2, a3, a4, a5, a6, a7, if_true, if_false, and_self,
      not_true_eq_false, List.drop_succ_cons, List.drop_zero]
    rw [char_ofNat_toNat c _ (by omega)]

theorem utf8EncodeCodePoint_length_pos (n : Nat) : 1 ≤ (utf8EncodeCodePoint n).length := by
  unfold utf8EncodeCodePoint
  split_ifs <;> simp

theorem utf8DecodeAux_utf8 (s : Str) :
    ∀ n, (utf8 s).length ≤ n → utf8DecodeAux n (utf8 s) = s := by
  induction s with
  | nil =>
    intro n _
    cases n <;> rfl
  | cons c s ih =>
    intro n hn
    have e : utf8 (c :: s) = utf8EncodeCodePoint c.toNat ++ utf8 s := by
      simp [utf8]
    rw [e, List.length_append] at hn
    have hpos := utf8EncodeCodePoint_length_pos c.toNat
    cases n with
    | zero => omega
    | succ n =>
      rw [e, utf8DecodeAux_encode, ih n (by omega)]

theorem utf8Decode_utf8 (s : Str) : utf8Decode (utf8 s) = s :=
  utf8DecodeAux_utf8 s _ (Nat.le_refl _)

theorem formUnescaped_ascii (c : Char) (h : formUnescaped c = true) :
    c.toNat < 128 ∧ c.toNat ≠ 37 ∧ c.toNat ≠ 43 ∧ c.toNat ≠ 38 ∧ c.toNat ≠ 61 := by
  simp [formUnescaped, isAsciiAlphanumeric] at h
  rcases h with h | rfl | rfl | rfl | rfl
  · omega
  · decide
  · decide
  · decide
  · decide

theorem uriUnreserved_ascii (c : Char) (h : uriUnreserved c = true) :
    c.toNat < 128 ∧ c.toNat ≠ 37 := by
  simp [uriUnreserved, isAsciiAlphanumeric] at h
  rcases h with h | rfl | rfl | rfl | rfl | rfl | rfl | rfl | rfl | rfl
  · omega
  all_goals decide

theorem hexUpper_facts : ∀ x, x < 16 →
    (hexUpper.getD x '0').toNat < 128 ∧ (hexUpper.getD x '0').toNat ≠ 43 ∧
      hexValue (hexUpper.getD x '0').toNat = some x ∧
      (hexUpper.getD x '0').toNat ≠ 38 ∧ (hexUpper.getD x '0').toNat ≠ 61 := by
  decide

theorem utf8_cons (c : Char) (s : Str) :
    utf8 (c :: s) = utf8EncodeCodePoint c.toNat ++ utf8 s := by
  simp [utf8]

theorem utf8EncodeCodePoint_ascii (n : Nat) (h : n < 128) : utf8EncodeCodePoint n = [n] := by
  simp [utf8EncodeCodePoint, h]

theorem utf8_percentEncodeByte (b : Nat) :
    utf8 (percentEncodeByte b) =
      [37, (hexUpper.getD (b / 16 % 16) '0').toNat, (hexUpper.getD (b % 16) '0').toNat] := by
  have h1 := (hexUpper_facts (b / 16 % 16) (Nat.mod_lt _ (by decide))).1
  have h2 := (hexUpper_facts (b % 16) (Nat.mod_lt _ (by decide))).1
  unfold percentEncodeByte
  rw [utf8_cons, utf8_cons, utf8_cons, utf8EncodeCodePoint_ascii _ h1,
    utf8EncodeCodePoint_ascii _ h2]
  rfl

theorem percentDecode_literal (x : Nat) (hx : x ≠ 37) (Y : List Nat) :
    percentDecode (x :: Y) = x :: percentDecode Y := by
  rcases Y with _ | ⟨a, _ | ⟨b, Y⟩⟩ <;> simp [percentDecode, hx]

theorem percentDecode_escape (b : Nat) (hb : b < 256) (Y : List Nat) :
    percentDecode (37 :: (hexUpper.getD (b / 16 % 16) '0').toNat
      :: (hexUpper.getD (b % 16) '0').toNat :: Y) = b :: percentDecode Y := by
  have h1 := (hexUpper_facts (b / 16 % 16) (Nat.mod_lt _ (by decide))).2.2.1
  have h2 := (hexUpper_facts (b % 16) (Nat.mod_lt _ (by decide))).2.2.1
  simp only [percentDecode, h1, h2, Option.isSome_some, and_self, if_true, Option.getD_some]
  congr 1
  omega

theorem utf8EncodeCodePoint_lt (c : Char) : ∀ b ∈ utf8EncodeCodePoint c.toNat, b < 256 := by
  have hv := char_valid c
  unfold utf8EncodeCodePoint
  split_ifs <;> simp <;> omega

theorem percentDecode_escapes (bs : List Nat) (h : ∀ b ∈ bs, b < 256) (Y : List Nat) :
    percentDecode (utf8 (bs.flatMap percentEncodeByte) ++ Y) = bs ++ percentDecode Y := by
  induction bs with
  | nil => rfl
  | cons b bs ih =>
    rw [List.flatMap_cons, utf8_append, utf8_percentEncodeByte, List.append_assoc]
    simp only [List.cons_append, List.nil_append]
    rw [percentDecode_escape b (h b (List.mem_cons_self b bs)),
      ih fun x hx => h x (List.mem_cons_of_mem b hx)]

theorem map_plusToSpace_escapes (bs : List Nat) :
    (utf8 (bs.flatMap percentEncodeByte)).map plusToSpace
      = utf8 (bs.flatMap percentEncodeByte) := by
  induction bs with
  | nil => rfl
  | cons b bs ih =>
    have h1 := (hexUpper_facts (b / 16 % 16) (Nat.mod_lt _ (by decide))).2.1
    have h2 := (hexUpper_facts (b % 16) (Nat.mod_lt _ (by decide))).2.1
    rw [List.flatMap_cons, utf8_append, List.map_append, ih, utf8_percentEncodeByte]
    have h0 : ¬ ((37 : Nat) = 43) := by decide
    simp only [List.map_cons, List.map_nil, plusToSpace, h0, h1, h2, if_false]

theorem formUrlDecode_step (c : Char) (Y : List Nat) :
    percentDecode ((utf8 (formUrlEncode [c])).map plusToSpace ++ Y)
      = utf8EncodeCodePoint c.toNat ++ percentDecode Y := by
  rw [formUrlEncode_singleton]
  split_ifs with h1 h2
  · subst h1
    exact percentDecode_literal 32 (by decide) Y
  · obtain ⟨a1, a2, a3, _, _⟩ := formUnescaped_ascii c h2
    rw [utf8_cons, utf8EncodeCodePoint_ascii _ a1]
    simp only [utf8, List.flatMap_nil, List.append_nil, List.map_cons, List.map_nil, plusToSpace,
      a3, if_false, List.cons_append, List.nil_append]
    exact percentDecode_literal _ a2 Y
  · rw [map_plusToSpace_escapes, percentDecode_escapes _ (utf8EncodeCodePoint_lt c)]

theorem percentDecode_formUrlEncode (s : Str) :
    percentDecode ((utf8 (formUrlEncode s)).map plusToSpace) = utf8 s := by
  induction s with
  | nil => rfl
  | cons c s ih =>
    rw [formUrlEncode_cons, utf8_append, List.map_append, formUrlDecode_step, ih, utf8_cons]

theorem formUrlDecode_formUrlEncode (s : Str) : formUrlDecode (formUrlEncode s) = s := by
  unfold formUrlDecode
  rw [percentDecode_formUrlEncode, utf8Decode_utf8]

theorem encodeURIComponent_cons (c : Char) (s : Str) :
    encodeURIComponent (c :: s) = encodeURIComponent [c] ++ encodeURIComponent s := by
  simp [encodeURIComponent]

theorem encodeURIComponent_singleton (c : Char) :
    encodeURIComponent [c] = if uriUnreserved c = true then [c]
      else (utf8EncodeCodePoint c.toNat).flatMap percentEncodeByte := by
  simp [encodeURIComponent]

theorem percentDecode_step (c : Char) (Y : List Nat) :
    percentDecode (utf8 (encodeURIComponent [c]) ++ Y)
      = utf8EncodeCodePoint c.toNat ++ percentDecode Y := by
  rw [encodeURIComponent_singleton]
  split_ifs with h1
  · obtain ⟨a1, a2⟩ := uriUnreserved_ascii c h1
    rw [utf8_cons, utf8EncodeCodePoint_ascii _ a1]
    simp only [utf8, List.flatMap_nil, List.append_nil, List.cons_append, List.nil_append]
    exact percentDecode_literal _ a2 Y
  · exact percentDecode_escapes _ (utf8EncodeCodePoint_lt c) Y

theorem percentDecode_encodeURIComponent (s : Str) :
    percentDecode (utf8 (encodeURIComponent s)) = utf8 s := by
  induction s with
  | nil => rfl
  | cons c s ih =>
    rw [encodeURIComponent_cons, utf8_append, percentDecode_step, ih, utf8_cons]

theorem percentDecodeString_encodeURIComponent (s : Str) :
    percentDecodeString (encodeURIComponent s) = s := by
  unfold percentDecodeString
  rw [percentDecode_encodeURIComponent, utf8Decode_utf8]

theorem formUrlEncode_no_separator (s : Str) :
    ∀ c ∈ formUrlEncode s, c.toNat ≠ 38 ∧ c.toNat ≠ 61 := by
  intro c hc
  unfold formUrlEncode at hc
  obtain ⟨d, _, hd⟩ := List.mem_flatMap.1 hc
  split_ifs at hd with h1 h2
  · rw [List.mem_singleton.1 hd]
    decide
  · rw [List.mem_singleton.1 hd]
    obtain ⟨_, _, _, a4, a5⟩ := formUnescaped_ascii d h2
    exact ⟨a4, a5⟩
  · obtain ⟨b, _, hb⟩ := List.mem_flatMap.1 hd
    unfold percentEncodeByte at hb
    simp only [List.mem_cons, List.mem_singleton, List.mem_nil_iff, or_false] at hb
    rcases hb with rfl | rfl | rfl
    · decide
    · have h := hexUpper_facts (b / 16 % 16) (Nat.mod_lt _ (by decide))
      exact ⟨h.2.2.2.1, h.2.2.2.2⟩
    · have h := hexUpper_facts (b % 16) (Nat.mod_lt _ (by decide))
      exact ⟨h.2.2.2.1, h.2.2.2.2⟩

theorem formUrlEncode_no_eq (s : Str) : '=' ∉ formUrlEncode s :=
  fun h => (formUrlEncode_no_separator s _ h).2 rfl

theorem formUrlEncode_no_amp (s : Str) : '&' ∉ formUrlEncode s :=
  fun h => (formUrlEncode_no_separator s _ h).1 rfl

theorem serializePair_no_amp (kv : Str × Str) : '&' ∉ URLSearchParams.serializePair kv := by
  unfold URLSearchParams.serializePair
  intro h
  rcases List.mem_append.1 h with h1 | h1
  · exact formUrlEncode_no_amp _ h1
  · rcases List.mem_cons.1 h1 with h2 | h2
    · revert h2
      decide
    · exact formUrlEncode_no_amp _ h2

theorem parse_serializePair (kv : Str × Str) :
    (formUrlDecode (unline (URLSearchParams.serializePair kv)).1,
      formUrlDecode (unline (URLSearchParams.serializePair kv)).2) = kv := by
  unfold unline URLSearchParams.serializePair
  rw [takeWhile_ne_eq_append _ _ (formUrlEncode_no_eq kv.1),
    dropWhile_ne_eq_append _ _ (formUrlEncode_no_eq kv.1)]
  simp only [List.drop_succ_cons, List.drop_zero]
  rw [formUrlDecode_formUrlEncode, formUrlDecode_formUrlEncode]

theorem formUrlParse_toString (p : Payload) (hp : p ≠ []) :
    formUrlParse (URLSearchParams.toString p) = p := by
  unfold formUrlParse URLSearchParams.toString
  rw [List.splitOn_intercalate (p.map URLSearchParams.serializePair) '&'
    (fun l hl => by
      obtain ⟨kv, _, rfl⟩ := List.mem_map.1 hl
      exact serializePair_no_amp kv)
    (by simpa using hp)]
  have hf : (p.map URLSearchParams.serializePair).filter (fun item => decide (item ≠ []))
      = p.map URLSearchParams.serializePair := by
    rw [List.filter_eq_self]
    intro l hl
    obtain ⟨kv, _, rfl⟩ := List.mem_map.1 hl
    simp [URLSearchParams.serializePair]
  rw [hf, List.map_map]
  conv_rhs => rw [← List.map_id p]
  exact List.map_congr_left fun kv _ => parse_serializePair kv

theorem codePointLe_of_codeUnitLe (a b : Str) (ha : ∀ c ∈ a, c.toNat < 65536)
    (hb : ∀ c ∈ b, c.toNat < 65536) (h : codeUnitLe a b) : codePointLe a b := by
  unfold codeUnitLe at h
  unfold codePointLe codePointLt
  rcases h with h | h
  · exact Or.inl (utf16_injective a b h)
  · rw [utf16_of_bmp a ha, utf16_of_bmp b hb] at h
    exact Or.inr h

theorem utf8Le_of_codePointLe (a b : Str) (h : codePointLe a b) : utf8Le a b := by
  unfold codePointLe at h
  unfold utf8Le
  rcases h with h | h
  · exact Or.inl h
  · exact Or.inr ((codePointLt_iff_utf8 a b).1 h)

theorem splitOn_append_cons (x : Char) (a b : Str) :
    (a ++ x :: b).splitOn x = a.splitOn x ++ b.splitOn x := by
  unfold List.splitOn
  induction a with
  | nil => simp
  | cons c a ih =>
    rw [List.cons_append, List.splitOnP_cons, List.splitOnP_cons, ih]
    split_ifs
    · rfl
    · cases hA : List.splitOnP (· == x) a with
      | nil => exact absurd hA (List.splitOnP_ne_nil _ _)
      | cons h t => rfl

theorem splitOn_intercalate_flatMap (ls : List Str) (h : ls ≠ []) :
    (['\n'].intercalate ls).splitOn '\n' = ls.flatMap fun l => l.splitOn '\n' := by
  induction ls with
  | nil => exact absurd rfl h
  | cons x ls ih =>
    cases ls with
    | nil => simp [List.intercalate]
    | cons y ls =>
      rw [intercalate_cons_cons, List.append_assoc, List.singleton_append,
        splitOn_append_cons, ih (by simp)]
      simp only [List.flatMap_cons]

theorem splitOn_no_newline (l : Str) (h : '\n' ∉ l) : l.splitOn '\n' = [l] := by
  unfold List.splitOn
  apply List.splitOnP_eq_single
  intro c hc hcn
  rw [beq_iff_eq] at hcn
  exact h (hcn ▸ hc)

theorem mem_lines_dataCheckString (p : Payload) (l : Str) (hp : p ≠ []) :
    l ∈ (dataCheckString p).splitOn '\n' ↔ ∃ kv ∈ p, l ∈ (line kv).splitOn '\n' := by
  have hne : sortedLines p ≠ [] := by
    intro e
    have := sortedLines_length p
    rw [e] at this
    exact hp (List.length_eq_zero.1 this.symm)
  unfold dataCheckString join
  rw [splitOn_intercalate_flatMap _ hne, List.mem_flatMap]
  constructor
  · rintro ⟨s, hs, hl⟩
    obtain ⟨kv, hkv, rfl⟩ := (mem_sortedLines p s).1 hs
    exact ⟨kv, hkv, hl⟩
  · rintro ⟨kv, hkv, hl⟩
    exact ⟨line kv, (mem_sortedLines p _).2 ⟨kv, hkv, rfl⟩, hl⟩

theorem hash_piece_iff (p : Payload) :
    (∃ l ∈ (dataCheckString p).splitOn '\n', "hash=".toList <+: l) ↔
      ∃ kv ∈ p, ∃ l ∈ (line kv).splitOn '\n', "hash=".toList <+: l := by
  cases p with
  | nil =>
    constructor
    · rintro ⟨l, hl, hpre⟩
      have e : l = [] := by simpa [dataCheckString, join, sortedLines, sort,
        URLSearchParams.entries, List.intercalate, List.splitOn] using hl
      rw [e] at hpre
      revert hpre
      decide
    · rintro ⟨kv, hkv, _⟩
      cases hkv
  | cons kv0 p =>
    constructor
    · rintro ⟨l, hl, hpre⟩
      obtain ⟨kv, hkv, hl2⟩ := (mem_lines_dataCheckString _ l (by simp)).1 hl
      exact ⟨kv, hkv, l, hl2, hpre⟩
    · rintro ⟨kv, hkv, l, hl, hpre⟩
      exact ⟨l, (mem_lines_dataCheckString _ l (by simp)).2 ⟨kv, hkv, hl⟩, hpre⟩

theorem digitChar_digit : ∀ d, d < 10 →
    48 ≤ (Nat.digitChar d).toNat ∧ (Nat.digitChar d).toNat ≤ 57 := by
  decide

theorem toDigitsCore_digits (fuel : Nat) :
    ∀ (n : Nat) (ds : List Char), (∀ c ∈ ds, 48 ≤ c.toNat ∧ c.toNat ≤ 57) →
      ∀ c ∈ Nat.toDigitsCore 10 fuel n ds, 48 ≤ c.toNat ∧ c.toNat ≤ 57 := by
  induction fuel with
  | zero =>
    intro n ds h
    exact h
  | succ fuel ih =>
    intro n ds h
    have hd := digitChar_digit (n % 10) (Nat.mod_lt _ (by decide))
    have hds : ∀ c ∈ Nat.digitChar (n % 10) :: ds, 48 ≤ c.toNat ∧ c.toNat ≤ 57 := by
      intro c hc
      rcases List.mem_cons.1 hc with rfl | hc
      · exact hd
      · exact h c hc
    unfold Nat.toDigitsCore
    simp only []
    split_ifs
    · exact hds
    · exact ih _ _ hds

theorem toDigitsCore_length (k : Nat) :
    ∀ (fuel n : Nat) (ds : List Char), n < 10 ^ (k + 1) →
      (Nat.toDigitsCore 10 fuel n ds).length ≤ k + 1 + ds.length := by
  induction k with
  | zero =>
    intro fuel n ds hn
    cases fuel with
    | zero =>
      unfold Nat.toDigitsCore
      omega
    | succ fuel =>
      have h0 : n / 10 = 0 := by omega
      unfold Nat.toDigitsCore
      simp [h0]
      omega
  | succ k ih =>
    intro fuel n ds hn
    cases fuel with
    | zero =>
      unfold Nat.toDigitsCore
      omega
    | succ fuel =>
      unfold Nat.toDigitsCore
      simp only []
      split_ifs
      · simp
        omega
      · have hn2 : n / 10 < 10 ^ (k + 1) := by
          rw [Nat.div_lt_iff_lt_mul (by decide)]
          calc n < 10 ^ (k + 1 + 1) := hn
            _ = 10 ^ (k + 1) * 10 := by rw [Nat.pow_succ]
        have := ih fuel (n / 10) (Nat.digitChar (n % 10) :: ds) hn2
        simp only [List.length_cons] at this
        omega

theorem numberToString_chars (n : Int) :
    ∀ c ∈ numberToString n, c = '-' ∨ (48 ≤ c.toNat ∧ c.toNat ≤ 57) := by
  intro c hc
  have hd : ∀ c ∈ Nat.toDigits 10 n.natAbs, 48 ≤ c.toNat ∧ c.toNat ≤ 57 :=
    toDigitsCore_digits _ _ [] (by simp)
  unfold numberToString at hc
  split_ifs at hc
  · rcases List.mem_cons.1 hc with h | h
    · exact Or.inl h
    · exact Or.inr (hd c h)
  · exact Or.inr (hd c hc)

theorem numberToString_length (n : Int) (h : isSafeInteger n) :
    (numberToString n).length ≤ 17 := by
  unfold isSafeInteger at h
  have hl : (Nat.toDigits 10 n.natAbs).length ≤ 16 := by
    have := toDigitsCore_length 15 (n.natAbs + 1) n.natAbs [] (by
      have : (10 : Nat) ^ (15 + 1) = 10000000000000000 := by norm_num
      omega)
    simpa [Nat.toDigits] using this
  unfold numberToString
  split_ifs
  · rw [List.length_cons]
    omega
  · omega

theorem encodeURIComponent_append (a b : Str) :
    encodeURIComponent (a ++ b) = encodeURIComponent a ++ encodeURIComponent b := by
  simp [encodeURIComponent, List.flatMap_append]

theorem encodeURIComponent_of_unreserved (s : Str) (h : ∀ c ∈ s, uriUnreserved c = true) :
    encodeURIComponent s = s := by
  induction s with
  | nil => rfl
  | cons c s ih =>
    rw [encodeURIComponent_cons, encodeURIComponent_singleton,
      ih fun d hd => h d (List.mem_cons_of_mem c hd), if_pos (h c (List.mem_cons_self c s))]
    rfl

theorem uriUnreserved_of_digit (c : Char) (h : c = '-' ∨ (48 ≤ c.toNat ∧ c.toNat ≤ 57)) :
    uriUnreserved c = true := by
  rcases h with rfl | h
  · decide
  · simp [uriUnreserved, isAsciiAlphanumeric, h.1, h.2]

theorem encodeURIComponent_numberToString (n : Int) :
    encodeURIComponent (numberToString n) = numberToString n :=
  encodeURIComponent_of_unreserved _ fun c hc =>
    uriUnreserved_of_digit c (numberToString_chars n c hc)

theorem hexUpper_getD_mem (n : Nat) : hexUpper.getD (n % 16) '0' ∈ hexUpper := by
  have h : n % 16 < 16 := Nat.mod_lt _ (by decide)
  interval_cases (n % 16) <;> simp [hexUpper]

theorem encodeURIComponent_chars (s : Str) :
    ∀ c ∈ encodeURIComponent s, uriUnreserved c = true ∨ c = '%' ∨ c ∈ hexUpper := by
  intro c hc
  unfold encodeURIComponent at hc
  obtain ⟨d, _, hd⟩ := List.mem_flatMap.1 hc
  split_ifs at hd with h1
  · rw [List.mem_singleton.1 hd]
    exact Or.inl h1
  · obtain ⟨b, _, hb⟩ := List.mem_flatMap.1 hd
    unfold percentEncodeByte at hb
    simp only [List.mem_cons, List.mem_singleton, List.mem_nil_iff, or_false] at hb
    rcases hb with rfl | rfl | rfl
    · exact Or.inr (Or.inl rfl)
    · exact Or.inr (Or.inr (hexUpper_getD_mem _))
    · exact Or.inr (Or.inr (hexUpper_getD_mem _))

theorem char_ofNat_toNat_cases (n : Nat) :
    (Char.ofNat n).toNat = n ∨ (Char.ofNat n).toNat = 0 := by
  unfold Char.ofNat
  split_ifs with h
  · exact Or.inl rfl
  · exact Or.inr rfl

theorem escape_chars : ∀ c ∈ "\\btnfr\"u0123456789abcdef".toList,
    c ≠ '\n' ∧ c ≠ '\t' ∧ c ≠ '\r' ∧ c ≠ ' ' := by
  decide

theorem hexLower_escape_chars : ∀ c ∈ hexLower, c ∈ "\\btnfr\"u0123456789abcdef".toList := by
  decide

theorem quoteCodePoint_chars (cp : Nat) (c : Char) (h : c ∈ quoteCodePoint cp) :
    c ≠ '\n' ∧ c ≠ '\t' ∧ c ≠ '\r' ∧ (c = ' ' → cp = 32) := by
  have lift : c ∈ "\\btnfr\"u0123456789abcdef".toList →
      c ≠ '\n' ∧ c ≠ '\t' ∧ c ≠ '\r' ∧ (c = ' ' → cp = 32) := fun hm =>
    have e := escape_chars c hm
    ⟨e.1, e.2.1, e.2.2.1, fun hs => absurd hs e.2.2.2⟩
  unfold quoteCodePoint at h
  split_ifs at h with h1 h2 h3 h4 h5 h6 h7 h8
  · exact lift (by simp only [List.mem_cons, List.mem_singleton, List.mem_nil_iff, or_false] at h
                   rcases h with rfl | rfl <;> decide)
  · exact lift (by simp only [List.mem_cons, List.mem_singleton, List.mem_nil_iff, or_false] at h
                   rcases h with rfl | rfl <;> decide)
  · exact lift (by simp only [List.mem_cons, List.mem_singleton, List.mem_nil_iff, or_false] at h
                   rcases h with rfl | rfl <;> decide)
  · exact lift (by simp only [List.mem_cons, List.mem_singleton, List.mem_nil_iff, or_false] at h
                   rcases h with rfl | rfl <;> decide)
  · exact lift (by simp only [List.mem_cons, List.mem_singleton, List.mem_nil_iff, or_false] at h
                   rcases h with rfl | rfl <;> decide)
  · exact lift (by simp only [List.mem_cons, List.mem_singleton, List.mem_nil_iff, or_false] at h
                   rcases h with rfl | rfl <;> decide)
  · exact lift (by simp only [List.mem_cons, List.mem_singleton, List.mem_nil_iff, or_false] at h
                   rcases h with rfl | rfl <;> decide)
  · unfold unicodeEscape at h
    simp only [List.mem_cons, List.mem_singleton, List.mem_nil_iff, or_false] at h
    rcases h with rfl | rfl | rfl | rfl | rfl | rfl
    · exact lift (by decide)
    · exact lift (by decide)
    · exact lift (hexLower_escape_chars _ (hexLower_getD_mem _))
    · exact lift (hexLower_escape_chars _ (hexLower_getD_mem _))
    · exact lift (hexLower_escape_chars _ (hexLower_getD_mem _))
    · exact lift (hexLower_escape_chars _ (hexLower_getD_mem _))
  · rw [List.mem_singleton] at h
    subst h
    have hc := char_ofNat_toNat_cases cp
    have k : ∀ d : Char, Char.ofNat cp = d → (Char.ofNat cp).toNat = d.toNat :=
      fun d e => by rw [e]
    refine ⟨fun e => ?_, fun e => ?_, fun e => ?_, fun e => ?_⟩
    · have := k _ e
      have e2 : ('\n' : Char).toNat = 10 := rfl
      omega
    · have := k _ e
      have e2 : ('\t' : Char).toNat = 9 := rfl
      omega
    · have := k _ e
      have e2 : ('\r' : Char).toNat = 13 := rfl
      omega
    · have := k _ e
      have e2 : (' ' : Char).toNat = 32 := rfl
      omega

theorem stringToCodePoints_mem :
    ∀ (n : Nat) (s : JSString), s.length ≤ n →
      ∀ x ∈ stringToCodePoints s, x ∈ s ∨ 65536 ≤ x := by
  intro n
  induction n with
  | zero =>
    intro s hs x hx
    have e : s = [] := List.length_eq_zero.1 (by omega)
    subst e
    simp [stringToCodePoints] at hx
  | succ n ih =>
    intro s hs x hx
    match s, hs, hx with
    | [], _, hx => simp [stringToCodePoints] at hx
    | [c], _, hx =>
      simp only [stringToCodePoints, List.mem_singleton] at hx
      exact Or.inl (by simp [hx])
    | c :: d :: rest, hs, hx =>
      simp only [stringToCodePoints] at hx
      simp only [List.length_cons] at hs
      split_ifs at hx with hc
      · rcases List.mem_cons.1 hx with rfl | hx
        · right
          omega
        · rcases ih rest (by omega) x hx with h | h
          · left
            exact List.mem_cons_of_mem _ (List.mem_cons_of_mem _ h)
          · exact Or.inr h
      · rcases List.mem_cons.1 hx with rfl | hx
        · left
          exact List.mem_cons_self _ _
        · rcases ih (d :: rest) (by simp only [List.length_cons]; omega) x hx with h | h
          · left
            exact List.mem_cons_of_mem _ h
          · exact Or.inr h

theorem quoteJSONString_chars (s : JSString) (c : Char) (h : c ∈ quoteJSONString s) :
    c ≠ '\n' ∧ c ≠ '\t' ∧ c ≠ '\r' ∧ (c = ' ' → 32 ∈ s) := by
  unfold quoteJSONString at h
  rcases List.mem_cons.1 h with rfl | h
  · exact ⟨by decide, by decide, by decide, fun e => absurd e (by decide)⟩
  · rcases List.mem_append.1 h with h | h
    · obtain ⟨cp, hcp, hc⟩ := List.mem_flatMap.1 h
      obtain ⟨a1, a2, a3, a4⟩ := quoteCodePoint_chars cp c hc
      refine ⟨a1, a2, a3, fun e => ?_⟩
      have e2 := a4 e
      subst e2
      rcases stringToCodePoints_mem _ s (Nat.le_refl _) 32 hcp with h32 | h32
      · exact h32
      · omega
    · rw [List.mem_singleton] at h
      subst h
      exact ⟨by decide, by decide, by decide, fun e => absurd e (by decide)⟩

theorem plain_chars (t : Str) (h : ∀ c ∈ t, c ≠ '\n' ∧ c ≠ '\t' ∧ c ≠ '\r' ∧ c ≠ ' ')
    (P : Prop) : ∀ c ∈ t, c ≠ '\n' ∧ c ≠ '\t' ∧ c ≠ '\r' ∧ (c = ' ' → P) :=
  fun c hc => ⟨(h c hc).1, (h c hc).2.1, (h c hc).2.2.1, fun e => absurd e (h c hc).2.2.2⟩

theorem numberToString_plain (n : Int) :
    ∀ c ∈ numberToString n, c ≠ '\n' ∧ c ≠ '\t' ∧ c ≠ '\r' ∧ c ≠ ' ' := by
  intro c hc
  rcases numberToString_chars n c hc with rfl | h
  · decide
  · have e1 : ('\n' : Char).toNat = 10 := rfl
    have e2 : ('\t' : Char).toNat = 9 := rfl
    have e3 : ('\r' : Char).toNat = 13 := rfl
    have e4 : (' ' : Char).toNat = 32 := rfl
    refine ⟨?_, ?_, ?_, ?_⟩ <;> (rintro rfl; omega)

theorem jsonStringify_userObject (u : User) :
    jsonStringify (userObject u) =
        "\x7b\"id\":".toList ++ numberToString u.id
          ++ ",\"first_name\":".toList ++ quoteJSONString u.first_name
          ++ ",\"last_name\":".toList ++ quoteJSONString u.last_name
          ++ ",\"username\":".toList ++ quoteJSONString u.username
          ++ ",\"language_code\":".toList ++ quoteJSONString u.language_code
          ++ ",\"is_premium\":".toList ++ (if u.is_premium then "true" else "false").toList
          ++ ",\"allows_write_to_pm\":".toList
          ++ (if u.allows_write_to_pm then "true" else "false").toList
          ++ "\x7d".toList := by
  obtain ⟨k1, k2, k3, k4, k5, k6, k7⟩ := quoteJSONString_keys
  unfold jsonStringify userObject
  simp only [List.map_cons, List.map_nil, serializeMember, serializeJSONProperty, k1, k2, k3,
    k4, k5, k6, k7, intercalate_cons_cons]
  cases u.is_premium <;> cases u.allows_write_to_pm <;>
    simp [serializeJSONProperty, List.intercalate]

theorem encodeURIComponent_bool (b : Bool) :
    encodeURIComponent (if b then "true" else "false").toList
      = (if b then "true" else "false").toList := by
  cases b <;> decide

theorem userValue_expanded (u : User) :
    userValue u =
        "%7B%22id%22%3A".toList ++ numberToString u.id
          ++ "%2C%22first_name%22%3A".toList ++ encodeURIComponent (quoteJSONString u.first_name)
          ++ "%2C%22last_name%22%3A".toList ++ encodeURIComponent (quoteJSONString u.last_name)
          ++ "%2C%22username%22%3A".toList ++ encodeURIComponent (quoteJSONString u.username)
          ++ "%2C%22language_code%22%3A".toList
          ++ encodeURIComponent (quoteJSONString u.language_code)
          ++ "%2C%22is_premium%22%3A".toList
          ++ (if u.is_premium then "true" else "false").toList
          ++ "%2C%22allows_write_to_pm%22%3A".toList
          ++ (if u.allows_write_to_pm then "true" else "false").toList
          ++ "%7D".toList := by
  have e1 : encodeURIComponent "\x7b\"id\":".toList = "%7B%22id%22%3A".toList := by decide
  have e2 : encodeURIComponent ",\"first_name\":".toList
      = "%2C%22first_name%22%3A".toList := by decide
  have e3 : encodeURIComponent ",\"last_name\":".toList
      = "%2C%22last_name%22%3A".toList := by decide
  have e4 : encodeURIComponent ",\"username\":".toList
      = "%2C%22username%22%3A".toList := by decide
  have e5 : encodeURIComponent ",\"language_code\":".toList
      = "%2C%22language_code%22%3A".toList := by decide
  have e6 : encodeURIComponent ",\"is_premium\":".toList
      = "%2C%22is_premium%22%3A".toList := by decide
  have e7 : encodeURIComponent ",\"allows_write_to_pm\":".toList
      = "%2C%22allows_write_to_pm%22%3A".toList := by decide
  have e8 : encodeURIComponent "\x7d".toList = "%7D".toList := by decide
  unfold userValue
  rw [jsonStringify_userObject]
  simp only [encodeURIComponent_append, e1, e2, e3, e4, e5, e6, e7, e8,
    encodeURIComponent_numberToString, encodeURIComponent_bool]

theorem jsonStringify_whitespace (u : User) :
    ∀ c ∈ jsonStringify (userObject u), c ≠ '\n' ∧ c ≠ '\t' ∧ c ≠ '\r' ∧
      (c = ' ' → 32 ∈ u.first_name ∨ 32 ∈ u.last_name ∨ 32 ∈ u.username
        ∨ 32 ∈ u.language_code) := by
  intro c hc
  rw [jsonStringify_userObject] at hc
  simp only [List.mem_append, or_assoc] at hc
  have hb : ∀ b : Bool, ∀ c ∈ (if b then "true" else "false").toList,
      c ≠ '\n' ∧ c ≠ '\t' ∧ c ≠ '\r' ∧ c ≠ ' ' := by
    intro b
    cases b <;> decide
  have q : ∀ s : JSString, c ∈ quoteJSONString s →
      (32 ∈ s → 32 ∈ u.first_name ∨ 32 ∈ u.last_name ∨ 32 ∈ u.username
        ∨ 32 ∈ u.language_code) →
      c ≠ '\n' ∧ c ≠ '\t' ∧ c ≠ '\r' ∧
        (c = ' ' → 32 ∈ u.first_name ∨ 32 ∈ u.last_name ∨ 32 ∈ u.username
          ∨ 32 ∈ u.language_code) := by
    intro s hs hr
    obtain ⟨a1, a2, a3, a4⟩ := quoteJSONString_chars s c hs
    exact ⟨a1, a2, a3, fun e => hr (a4 e)⟩
  rcases hc with h | h | h | h | h | h | h | h | h | h | h | h | h | h | h
  · exact plain_chars _ (by decide) _ c h
  · exact plain_chars _ (numberToString_plain u.id) _ c h
  · exact plain_chars _ (by decide) _ c h
  · exact q _ h fun e => Or.inl e
  · exact plain_chars _ (by decide) _ c h
  · exact q _ h fun e => Or.inr (Or.inl e)
  · exact plain_chars _ (by decide) _ c h
  · exact q _ h fun e => Or.inr (Or.inr (Or.inl e))
  · exact plain_chars _ (by decide) _ c h
  · exact q _ h fun e => Or.inr (Or.inr (Or.inr e))
  · exact plain_chars _ (by decide) _ c h
  · exact plain_chars _ (hb _) _ c h
  · exact plain_chars _ (by decide) _ c h
  · exact plain_chars _ (hb _) _ c h
  · exact plain_chars _ (by decide) _ c h

/-! ## The claims -/

/-- C1, as the code has it: for every secret token and every payload the signature is
the lowercase hexadecimal digits of one HMAC-SHA256 whose key is the UTF-8 bytes of the
token followed by the ten bytes of `WebAppData`, over the bytes of the data check string;
no derived key is computed. -/
theorem hash_eq_hmac_concat_key (token : Str) (p : Payload) :
    hash token p =
      hexDigest (hmacSha256 (utf8 token ++ [87, 101, 98, 65, 112, 112, 68, 97, 116, 97])
        (utf8 (dataCheckString p))) := by
  unfold hash createHmacDigest
  rw [utf8_append]
  rfl

/-- C1 fails at the inputs of the script: the signature the script computes differs from
the one HMAC-SHA256 gives under the derived key HMAC-SHA256(token, `WebAppData`). -/
theorem hash_ne_specSignature :
    hash fakeBotToken initDataRaw
        = "4e4fc271ee094311bc7e127c1a4a3437914e9188a33da7ee10fa1f6c6edd6ff8".toList ∧
      specSignature fakeBotToken (dataCheckString initDataRaw)
        = "e470d5238366d1e52e28e266f87aed2734a401bc1fe8fe4e3bf7d93e1107e3c9".toList ∧
      hash fakeBotToken initDataRaw
        ≠ specSignature fakeBotToken (dataCheckString initDataRaw) := by
  decide!

/-- C2, as the code has it: for every payload and every field of it, the line of the
field in the data check string is the name, `=` and the value as it is stored, while its
item in the printed string is the form-urlencoded name, `=` and the form-urlencoded
value; the two value texts are the same exactly when the stored value has only letters,
digits and `* - . _`. -/
theorem value_text_canonical_vs_output (token : Str) (p : Payload) (k v : Str)
    (h : (k, v) ∈ p) :
    (k ++ '=' :: v) ∈ sortedLines p ∧
      (∃ before after, output token p = ['&'].intercalate
        (before ++ (formUrlEncode k ++ '=' :: formUrlEncode v) :: after)) ∧
      (formUrlEncode v = v ↔ ∀ c ∈ v, formUnescaped c = true) := by
  refine ⟨(mem_sortedLines p _).2 ⟨(k, v), h, rfl⟩, ?_, formUrlEncode_eq_self_iff v⟩
  obtain ⟨s, t, rfl⟩ := List.append_of_mem h
  refine ⟨s.map URLSearchParams.serializePair,
    t.map URLSearchParams.serializePair ++ ["hash=".toList ++ hash token (s ++ (k, v) :: t)], ?_⟩
  rw [output_eq]
  simp [URLSearchParams.serializePair]

/-- C2 at the `user` field of the script. -/
theorem value_text_canonical_vs_output_witness :
    ("user".toList, userValue sampleUser) ∈ initDataRaw ∧
      ("user".toList ++ '=' :: userValue sampleUser) ∈ sortedLines initDataRaw :=
  ⟨by decide,
    (value_text_canonical_vs_output fakeBotToken initDataRaw "user".toList
      (userValue sampleUser) (by decide)).1⟩

/-- C2 fails at the `user` field of the script: after `user=` the data check string
carries the value as stored, with `%7B`, the printed string carries its form-urlencoding,
with `%257B`. -/
theorem user_value_text_differs :
    (valueAfter "user".toList ((dataCheckString initDataRaw).splitOn '\n')).map (List.take 12)
        = some "%7B%22id%22%".toList ∧
      (valueAfter "user".toList ((output fakeBotToken initDataRaw).splitOn '&')).map
          (List.take 12) = some "%257B%2522id".toList ∧
      valueAfter "user".toList ((dataCheckString initDataRaw).splitOn '\n')
        ≠ valueAfter "user".toList ((output fakeBotToken initDataRaw).splitOn '&') := by
  decide!

/-- C3, as the code has it: for every payload, the lines that are joined into the data
check string are a permutation of the `name=value` lines of the payload and stand in
non-decreasing lexicographic order of their UTF-16 code units; when every character of
the lines lies in the Basic Multilingual Plane they stand in non-decreasing lexicographic
order of code points, and of UTF-8 bytes; the data check string is these lines joined by
a newline. -/
theorem sortedLines_perm_sorted (p : Payload) :
    (sortedLines p).Perm (p.map line) ∧ (sortedLines p).Sorted codeUnitLe ∧
      ((∀ kv ∈ p, ∀ c ∈ line kv, c.toNat < 65536) →
        (sortedLines p).Sorted codePointLe ∧ (sortedLines p).Sorted utf8Le) ∧
      dataCheckString p = ['\n'].intercalate (sortedLines p) := by
  have hs : (sortedLines p).Sorted codeUnitLe :=
    (sort_sorted _).imp fun h => (sortCompare_le_iff_codeUnitLe _ _).1 h
  refine ⟨sort_perm _, hs, fun hb => ?_, rfl⟩
  have hm : ∀ l ∈ sortedLines p, ∀ c ∈ l, c.toNat < 65536 := by
    intro l hl
    obtain ⟨kv, hkv, rfl⟩ := (mem_sortedLines p l).1 hl
    exact hb kv hkv
  have hc : (sortedLines p).Sorted codePointLe :=
    List.Pairwise.imp_of_mem
      (fun {a b} ha hb2 h => codePointLe_of_codeUnitLe a b (hm a ha) (hm b hb2) h) hs
  exact ⟨hc, hc.imp fun h => utf8Le_of_codePointLe _ _ h⟩

/-- C3 at the payload of the script, whose lines are ASCII. -/
theorem sortedLines_perm_sorted_witness :
    (∀ kv ∈ initDataRaw, ∀ c ∈ line kv, c.toNat < 65536) ∧
      (sortedLines initDataRaw).Sorted codePointLe ∧ (sortedLines initDataRaw).Sorted utf8Le :=
  ⟨by decide!, (sortedLines_perm_sorted initDataRaw).2.2.1 (by decide!)⟩

/-- C3 fails for the order of code points outside the Basic Multilingual Plane: of the
fields U+FF61 `=x` and U+10000 `=y` the sort puts the second line first, though the first
precedes it in the order of code points and of UTF-8 bytes. -/
theorem sortedLines_not_code_point_sorted :
    sortedLines [([Char.ofNat 65377], ['x']), ([Char.ofNat 65536], ['y'])]
        = [[Char.ofNat 65536, '=', 'y'], [Char.ofNat 65377, '=', 'x']] ∧
      ¬ codePointLe [Char.ofNat 65536, '=', 'y'] [Char.ofNat 65377, '=', 'x'] ∧
      ¬ (sortedLines [([Char.ofNat 65377], ['x']), ([Char.ofNat 65536], ['y'])]).Sorted
          codePointLe ∧
      utf8 [Char.ofNat 65377, '=', 'x'] = [239, 189, 161, 61, 120] ∧
      utf8 [Char.ofNat 65536, '=', 'y'] = [240, 144, 128, 128, 61, 121] := by
  decide!

/-- C4: the data check string does not depend on the insertion order: a payload and any
permutation of its fields have the same data check string and, for every token, the same
signature. -/
theorem dataCheckString_perm (p q : Payload) (h : p.Perm q) :
    dataCheckString p = dataCheckString q ∧ ∀ token, hash token p = hash token q := by
  have hl : sortedLines p = sortedLines q := sort_eq_of_perm (h.map line)
  have hd : dataCheckString p = dataCheckString q := by
    unfold dataCheckString
    rw [hl]
  exact ⟨hd, fun token => by unfold hash; rw [hd]⟩

/-- C4 at the sample payload and its reversal. -/
theorem dataCheckString_perm_witness :
    initDataRaw.Perm initDataRaw.reverse ∧
      (dataCheckString initDataRaw = dataCheckString initDataRaw.reverse ∧
        ∀ token, hash token initDataRaw = hash token initDataRaw.reverse) :=
  ⟨(List.reverse_perm initDataRaw).symm,
    dataCheckString_perm initDataRaw initDataRaw.reverse (List.reverse_perm initDataRaw).symm⟩

/-- C5: for every payload without a `hash` field, the payload after signing is the
original fields in their insertion order followed by one `hash` field that holds the
signature, it has exactly that one `hash` field, and the printed string is the items of
the original fields in insertion order followed by `hash=` and the signature, joined by
`&`; for the sample the names are user, auth_date, start_param, chat_type,
chat_instance, hash. -/
theorem signed_appends_hash (token : Str) (p : Payload)
    (h : ∀ kv ∈ p, kv.1 ≠ "hash".toList) :
    signed token p = p ++ [("hash".toList, hash token p)] ∧
      (signed token p).filter (fun kv => decide (kv.1 = "hash".toList))
        = [("hash".toList, hash token p)] ∧
      output token p = ['&'].intercalate
        (p.map URLSearchParams.serializePair ++ ["hash=".toList ++ hash token p]) ∧
      (signed fakeBotToken initDataRaw).map Prod.fst
        = ["user".toList, "auth_date".toList, "start_param".toList, "chat_type".toList,
            "chat_instance".toList, "hash".toList] := by
  refine ⟨rfl, ?_, ?_, rfl⟩
  · unfold signed URLSearchParams.append
    rw [List.filter_append]
    have hp : p.filter (fun kv => decide (kv.1 = "hash".toList)) = [] := by
      rw [List.filter_eq_nil_iff]
      intro kv hkv
      simpa using h kv hkv
    rw [hp]
    simp
  · exact output_eq token p

/-- C5 at the payload of the script, which has no `hash` field before line 48. -/
theorem signed_appends_hash_witness :
    (∀ kv ∈ initDataRaw, kv.1 ≠ "hash".toList) ∧
      signed fakeBotToken initDataRaw
        = initDataRaw ++ [("hash".toList, hash fakeBotToken initDataRaw)] :=
  ⟨by decide, (signed_appends_hash fakeBotToken initDataRaw (by decide)).1⟩

/-- C6: for every secret token and every canonical string the signature has exactly 64
characters, each one of `0`-`9`, `a`-`f`; so has the signature of every payload. -/
theorem signature_hex64 (token canonical : Str) (p : Payload) :
    ((createHmacDigest (token ++ "WebAppData".toList) canonical).length = 64 ∧
      ∀ c ∈ createHmacDigest (token ++ "WebAppData".toList) canonical, c ∈ hexLower) ∧
    ((hash token p).length = 64 ∧ ∀ c ∈ hash token p, c ∈ hexLower) := by
  have key : ∀ k m : Str, (createHmacDigest k m).length = 64 ∧
      ∀ c ∈ createHmacDigest k m, c ∈ hexLower := by
    intro k m
    refine ⟨?_, hexDigest_mem _⟩
    unfold createHmacDigest
    rw [hexDigest_length, hmacSha256_length]
  exact ⟨key _ _, key _ _⟩

/-- C7, as the code has it: nothing is excluded from the data check string.  For every
payload, the string has a line (a piece between newlines) that starts with `hash=` exactly
when the line `name=value` of some field has such a piece; for a payload whose names and
values hold no newline that is exactly when a field is named `hash` or has a name that
starts with `hash=`; the same holds of the lines that are joined, for every payload; and
the field `a` with value `b`, newline, `hash=x`, where no field is named `hash`, gives the
string of the two fields `a=b`, `hash=x`. -/
theorem hash_line_iff (p : Payload) :
    ((∃ l ∈ (dataCheckString p).splitOn '\n', "hash=".toList <+: l) ↔
        ∃ kv ∈ p, ∃ l ∈ (line kv).splitOn '\n', "hash=".toList <+: l) ∧
      ((∀ kv ∈ p, '\n' ∉ kv.1 ∧ '\n' ∉ kv.2) →
        ((∃ l ∈ (dataCheckString p).splitOn '\n', "hash=".toList <+: l) ↔
          ∃ kv ∈ p, kv.1 = "hash".toList ∨ "hash=".toList <+: kv.1)) ∧
      ((∃ l ∈ sortedLines p, "hash=".toList <+: l) ↔
        ∃ kv ∈ p, kv.1 = "hash".toList ∨ "hash=".toList <+: kv.1) ∧
      dataCheckString [(['a'], "b\nhash=x".toList)] = "a=b\nhash=x".toList ∧
      dataCheckString [(['a'], "b\nhash=x".toList)]
        = dataCheckString [(['a'], ['b']), ("hash".toList, ['x'])] := by
  refine ⟨hash_piece_iff p, fun hn => ?_, ?_, by decide, by decide⟩
  · rw [hash_piece_iff]
    constructor
    · rintro ⟨kv, hkv, l, hl, hpre⟩
      rw [splitOn_no_newline _ (line_no_newline kv (hn kv hkv)).2,
        List.mem_singleton] at hl
      subst hl
      exact ⟨kv, hkv, (hash_eq_prefix_line kv).1 hpre⟩
    · rintro ⟨kv, hkv, h⟩
      refine ⟨kv, hkv, line kv, ?_, (hash_eq_prefix_line kv).2 h⟩
      rw [splitOn_no_newline _ (line_no_newline kv (hn kv hkv)).2]
      exact List.mem_singleton.2 rfl
  · constructor
    · rintro ⟨l, hl, hpre⟩
      obtain ⟨kv, hkv, rfl⟩ := (mem_sortedLines p l).1 hl
      exact ⟨kv, hkv, (hash_eq_prefix_line kv).1 hpre⟩
    · rintro ⟨kv, hkv, h⟩
      exact ⟨line kv, (mem_sortedLines p _).2 ⟨kv, hkv, rfl⟩, (hash_eq_prefix_line kv).2 h⟩

/-- C7 at the payload of the script, before and after line 48: before, no field is named
`hash` and the string has no `hash=` line; the names and values hold no newline. -/
theorem hash_line_iff_witness :
    (∀ kv ∈ initDataRaw, '\n' ∉ kv.1 ∧ '\n' ∉ kv.2) ∧
      ((∃ l ∈ (dataCheckString initDataRaw).splitOn '\n', "hash=".toList <+: l) ↔
        ∃ kv ∈ initDataRaw, kv.1 = "hash".toList ∨ "hash=".toList <+: kv.1) ∧
      ¬ ∃ l ∈ (dataCheckString initDataRaw).splitOn '\n', "hash=".toList <+: l :=
  ⟨by decide, (hash_line_iff initDataRaw).2.1 (by decide), by decide!⟩

/-- C7 fails on a payload that holds a `hash` field: the data check string of the payload
of the script after line 48 has a line that starts with `hash=`, and the one field
`hash=x` gives the data check string `hash=x`. -/
theorem dataCheckString_keeps_hash :
    (∃ l ∈ (dataCheckString (signed fakeBotToken initDataRaw)).splitOn '\n',
        "hash=".toList <+: l) ∧
      (∃ l ∈ sortedLines (signed fakeBotToken initDataRaw), "hash=".toList <+: l) ∧
      dataCheckString [("hash".toList, "x".toList)] = "hash=x".toList := by
  decide!

/-- C8: for every user record, the printed string starts with `user=` followed by the
form-urlencoding of the stored value, which is itself the percent-encoding of the JSON
text, and then `&`; the form-urlencoding turns every `%` into `%25`; for the sample the
printed string starts with `user=%257B%2522id%2522%`. -/
theorem user_value_encoded_twice (token : Str) (u : User) (rest : Payload)
    (_hid : isSafeInteger u.id) :
    (∃ tail, output token (("user".toList, userValue u) :: rest) =
        "user=".toList ++ formUrlEncode (encodeURIComponent (jsonStringify (userObject u)))
          ++ '&' :: tail) ∧
      (∀ a b : Str,
        formUrlEncode (a ++ '%' :: b) = formUrlEncode a ++ "%25".toList ++ formUrlEncode b) ∧
      "user=%257B%2522id%2522%".toList <+: output fakeBotToken initDataRaw := by
  refine ⟨?_, ?_, by decide!⟩
  · refine ⟨['&'].intercalate (rest.map URLSearchParams.serializePair
      ++ ["hash=".toList ++ hash token (("user".toList, userValue u) :: rest)]), ?_⟩
    rw [output_eq, List.map_cons, List.cons_append, intercalate_cons_of_ne_nil _ _ _ (by simp)]
    unfold URLSearchParams.serializePair userValue
    have e : formUrlEncode "user".toList = "user".toList := by decide
    have e5 : "user=".toList = "user".toList ++ ['='] := by decide
    simp only [e, e5, List.append_assoc, List.cons_append, List.nil_append]
  · intro a b
    rw [formUrlEncode_append, formUrlEncode_cons]
    have e : formUrlEncode ['%'] = "%25".toList := by decide
    rw [e, List.append_assoc]

/-- C8 at the user record of the script. -/
theorem user_value_encoded_twice_witness :
    isSafeInteger sampleUser.id ∧
      ∀ a b : Str,
        formUrlEncode (a ++ '%' :: b) = formUrlEncode a ++ "%25".toList ++ formUrlEncode b :=
  ⟨by decide, (user_value_encoded_twice fakeBotToken sampleUser [] (by decide)).2.1⟩

/-- C9: for every user record, the JSON text has the keys in the order id, first_name,
last_name, username, language_code, is_premium, allows_write_to_pm, with nothing between
the members but a comma and nothing around a colon; the text holds no newline, tab or
carriage return, and a space only where a string of the record has one; the id is printed
as at most 16 digits after an optional sign; the stored value is the percent-encoding of
that text, `%7B%22id%22%3A…%7D`, made of unreserved characters, `%` and uppercase
hexadecimal digits only, and percent-decoding it gives the text back; records with the
same seven fields give the same bytes. -/
theorem userValue_json (u : User) (hid : isSafeInteger u.id) :
    jsonStringify (userObject u) =
        "\x7b\"id\":".toList ++ numberToString u.id
          ++ ",\"first_name\":".toList ++ quoteJSONString u.first_name
          ++ ",\"last_name\":".toList ++ quoteJSONString u.last_name
          ++ ",\"username\":".toList ++ quoteJSONString u.username
          ++ ",\"language_code\":".toList ++ quoteJSONString u.language_code
          ++ ",\"is_premium\":".toList ++ (if u.is_premium then "true" else "false").toList
          ++ ",\"allows_write_to_pm\":".toList
          ++ (if u.allows_write_to_pm then "true" else "false").toList
          ++ "\x7d".toList ∧
      userValue u =
        "%7B%22id%22%3A".toList ++ numberToString u.id
          ++ "%2C%22first_name%22%3A".toList ++ encodeURIComponent (quoteJSONString u.first_name)
          ++ "%2C%22last_name%22%3A".toList ++ encodeURIComponent (quoteJSONString u.last_name)
          ++ "%2C%22username%22%3A".toList ++ encodeURIComponent (quoteJSONString u.username)
          ++ "%2C%22language_code%22%3A".toList
          ++ encodeURIComponent (quoteJSONString u.language_code)
          ++ "%2C%22is_premium%22%3A".toList
          ++ (if u.is_premium then "true" else "false").toList
          ++ "%2C%22allows_write_to_pm%22%3A".toList
          ++ (if u.allows_write_to_pm then "true" else "false").toList
          ++ "%7D".toList ∧
      (∀ c ∈ userValue u, uriUnreserved c = true ∨ c = '%' ∨ c ∈ hexUpper) ∧
      percentDecodeString (userValue u) = jsonStringify (userObject u) ∧
      (∀ c ∈ jsonStringify (userObject u), c ≠ '\n' ∧ c ≠ '\t' ∧ c ≠ '\r' ∧
        (c = ' ' → 32 ∈ u.first_name ∨ 32 ∈ u.last_name ∨ 32 ∈ u.username
          ∨ 32 ∈ u.language_code)) ∧
      (numberToString u.id).length ≤ 17 ∧
      (∀ c ∈ numberToString u.id, c = '-' ∨ (48 ≤ c.toNat ∧ c.toNat ≤ 57)) ∧
      ∀ v : User, v.id = u.id → v.first_name = u.first_name → v.last_name = u.last_name →
        v.username = u.username → v.language_code = u.language_code →
        v.is_premium = u.is_premium → v.allows_write_to_pm = u.allows_write_to_pm →
        utf8 (userValue v) = utf8 (userValue u) := by
  refine ⟨jsonStringify_userObject u, userValue_expanded u, encodeURIComponent_chars _,
    percentDecodeString_encodeURIComponent _, jsonStringify_whitespace u,
    numberToString_length u.id hid, numberToString_chars u.id, ?_⟩
  intro v h1 h2 h3 h4 h5 h6 h7
  rw [userValue_expanded v, userValue_expanded u, h1, h2, h3, h4, h5, h6, h7]

/-- C9 at the user record of the script: the stored value, character by character. -/
theorem userValue_json_witness :
    isSafeInteger sampleUser.id ∧
      userValue sampleUser =
        ("%7B%22id%22%3A99281932%2C%22first_name%22%3A%22Andrew%22%2C%22last_name"
          ++ "%22%3A%22Rogue%22%2C%22username%22%3A%22rogue%22%2C%22language_code%22%3A"
          ++ "%22en%22%2C%22is_premium%22%3Atrue%2C%22allows_write_to_pm%22%3Atrue%7D").toList ∧
      jsonStringify (userObject sampleUser) =
        ("\x7b\"id\":99281932,\"first_name\":\"Andrew\",\"last_name\":\"Rogue\","
          ++ "\"username\":\"rogue\",\"language_code\":\"en\",\"is_premium\":true,"
          ++ "\"allows_write_to_pm\":true\x7d").toList :=
  ⟨by decide, (userValue_json sampleUser (by decide)).2.1.trans (by decide!),
    (userValue_json sampleUser (by decide)).1.trans (by decide!)⟩

/-- C10, as the code has it: the sort places a line `a` before a line `b` exactly when
`a` precedes `b` in the lexicographic order of UTF-16 code units; the order of code points
is the order of UTF-8 bytes; and for two lines with characters of the Basic Multilingual
Plane only, the sort places `a` before `b` exactly when `a` precedes `b` in the order of
code points. -/
theorem sort_order_characterised (a b : Str) :
    (placesBefore a b ↔ List.Lex (· < ·) (utf16 a) (utf16 b)) ∧
      (codePointLt a b ↔ List.Lex (· < ·) (utf8 a) (utf8 b)) ∧
      ((∀ c ∈ a, c.toNat < 65536) → (∀ c ∈ b, c.toNat < 65536) →
        (placesBefore a b ↔ codePointLt a b)) := by
  refine ⟨placesBefore_iff_lex a b, codePointLt_iff_utf8 a b, fun ha hb => ?_⟩
  rw [placesBefore_iff_lex, utf16_of_bmp a ha, utf16_of_bmp b hb]
  rfl

/-- C10 at two lines of the script. -/
theorem sort_order_characterised_witness :
    (∀ c ∈ "auth_date=1716922846".toList, c.toNat < 65536) ∧
      (∀ c ∈ "chat_type=sender".toList, c.toNat < 65536) ∧
      (placesBefore "auth_date=1716922846".toList "chat_type=sender".toList ↔
        codePointLt "auth_date=1716922846".toList "chat_type=sender".toList) :=
  ⟨by decide, by decide,
    (sort_order_characterised "auth_date=1716922846".toList "chat_type=sender".toList).2.2
      (by decide) (by decide)⟩

/-- C10 fails outside the Basic Multilingual Plane: the line that starts with U+FF61
precedes the line that starts with U+10000 in the order of code points, yet the sort puts
the second line first, its leading surrogate `0xD800` being less than `0xFF61`. -/
theorem sort_not_code_point_order :
    codePointLt [Char.ofNat 65377, '=', 'x'] [Char.ofNat 65536, '=', 'y'] ∧
      ¬ placesBefore [Char.ofNat 65377, '=', 'x'] [Char.ofNat 65536, '=', 'y'] ∧
      sortedLines [([Char.ofNat 65377], ['x']), ([Char.ofNat 65536], ['y'])]
        = [[Char.ofNat 65536, '=', 'y'], [Char.ofNat 65377, '=', 'x']] := by
  decide!

/-- C11: for the inputs of the script the data check string is exactly the five lines
`auth_date=…`, `chat_instance=…`, `chat_type=…`, `start_param=…`, `user=…` in this order,
joined by one newline each. -/
theorem dataCheckString_known_vector :
    sortedLines initDataRaw =
        ["auth_date=1716922846".toList,
         "chat_instance=8428209589180549439".toList,
         "chat_type=sender".toList,
         "start_param=debug".toList,
         ("user=%7B%22id%22%3A99281932%2C%22first_name%22%3A%22Andrew%22%2C%22last_name"
           ++ "%22%3A%22Rogue%22%2C%22username%22%3A%22rogue%22%2C%22language_code%22%3A"
           ++ "%22en%22%2C%22is_premium%22%3Atrue%2C%22allows_write_to_pm%22%3Atrue%7D").toList] ∧
      dataCheckString initDataRaw =
        ("auth_date=1716922846\nchat_instance=8428209589180549439\nchat_type=sender\n"
          ++ "start_param=debug\n"
          ++ "user=%7B%22id%22%3A99281932%2C%22first_name%22%3A%22Andrew%22%2C%22last_name"
          ++ "%22%3A%22Rogue%22%2C%22username%22%3A%22rogue%22%2C%22language_code%22%3A"
          ++ "%22en%22%2C%22is_premium%22%3Atrue%2C%22allows_write_to_pm%22%3Atrue%7D").toList := by
  decide!

/-- C12, as the code has it: the string the program joins to the secret token is the
ASCII string `WebAppData`, and it is 10 bytes long. -/
theorem webAppData_ten_bytes (token : Str) (p : Payload) :
    hash token p = createHmacDigest (token ++ webAppData) (dataCheckString p) ∧
      webAppData = ['W', 'e', 'b', 'A', 'p', 'p', 'D', 'a', 't', 'a'] ∧
      utf8 webAppData = [87, 101, 98, 65, 112, 112, 68, 97, 116, 97] ∧
      (utf8 webAppData).length = 10 ∧
      (∀ b ∈ utf8 webAppData, b < 128) ∧
      utf8 (token ++ webAppData) = utf8 token ++ utf8 webAppData :=
  ⟨rfl, rfl, by decide, by decide, by decide, utf8_append token webAppData⟩

/-- C12 fails on the length: the string `WebAppData` has 10 bytes, not 11. -/
theorem webAppData_not_eleven_bytes :
    (utf8 webAppData).length = 10 ∧ (utf8 webAppData).length ≠ 11 ∧ webAppData.length ≠ 11 := by
  decide

/-- C13: for every payload of `n ≥ 1` fields whose names and values hold no newline, the
data check string holds exactly `n - 1` newlines, starts with a character that is not a
newline and ends with one; for the empty payload it is the empty string. -/
theorem dataCheckString_newlines (p : Payload) (hp : p ≠ [])
    (h : ∀ kv ∈ p, '\n' ∉ kv.1 ∧ '\n' ∉ kv.2) :
    (dataCheckString p).count '\n' = p.length - 1 ∧
      (∃ c rest, dataCheckString p = c :: rest ∧ c ≠ '\n') ∧
      (∃ c, (dataCheckString p).getLast? = some c ∧ c ≠ '\n') ∧
      dataCheckString [] = [] := by
  have hl := sortedLines_no_newline p h
  have hne : sortedLines p ≠ [] := by
    intro e
    have := sortedLines_length p
    rw [e] at this
    exact hp (List.length_eq_zero.1 this.symm)
  refine ⟨?_, intercalate_head _ hne hl, intercalate_getLast _ hne hl, rfl⟩
  unfold dataCheckString join
  rw [intercalate_count_newline _ fun l hl2 => (hl l hl2).2, sortedLines_length]

/-- C13 at the payload of the script. -/
theorem dataCheckString_newlines_witness :
    initDataRaw ≠ [] ∧ (∀ kv ∈ initDataRaw, '\n' ∉ kv.1 ∧ '\n' ∉ kv.2) ∧
      (dataCheckString initDataRaw).count '\n' = initDataRaw.length - 1 :=
  ⟨by decide, by decide, (dataCheckString_newlines initDataRaw (by decide) (by decide)).1⟩

/-- C14, as the code has it: the script has no check of the token; for every secret
token, the empty one too, the run ends with a printed string and the signature is 64
hexadecimal digits; with the empty token the key of the HMAC is `WebAppData` alone. -/
theorem run_never_fails (token : Str) (p : Payload) :
    run token p = some (output token p) ∧
      (hash token p).length = 64 ∧
      hash [] p = createHmacDigest webAppData (dataCheckString p) ∧
      run [] p = some (['&'].intercalate
        (p.map URLSearchParams.serializePair ++ ["hash=".toList ++ hash [] p])) := by
  refine ⟨rfl, ?_, rfl, ?_⟩
  · unfold hash createHmacDigest
    rw [hexDigest_length, hmacSha256_length]
  · unfold run
    rw [output_eq]

/-- C14 fails at the empty token: the script signs and prints, where the specification
has a configuration error and no output. -/
theorem run_empty_token :
    hash [] initDataRaw
        = "e225f0f869cdd5ae3121218e65d871cb1ec45bd0ecea74182c4bcd5768d414ba".toList ∧
      (run [] initDataRaw).isSome = true ∧
      specRun [] initDataRaw = none ∧
      run [] initDataRaw ≠ specRun [] initDataRaw := by
  decide!

/-- C16: for every two payloads whose names hold neither `=` nor a newline and whose
values hold no newline, equal data check strings make the payloads permutations of each
other; without the restriction the one field `a` with value `b`, newline, `c=d` and the
two fields `a=b`, `c=d` are no permutations of each other and yet have the same data
check string and, for every token, the same signature. -/
theorem dataCheckString_unambiguous (p q : Payload)
    (hp : ∀ kv ∈ p, '=' ∉ kv.1 ∧ '\n' ∉ kv.1 ∧ '\n' ∉ kv.2)
    (hq : ∀ kv ∈ q, '=' ∉ kv.1 ∧ '\n' ∉ kv.1 ∧ '\n' ∉ kv.2)
    (h : dataCheckString p = dataCheckString q) :
    p.Perm q ∧
      (dataCheckString [(['a'], ['b', '\n', 'c', '=', 'd'])]
          = dataCheckString [(['a'], ['b']), (['c'], ['d'])] ∧
        ¬ List.Perm [(['a'], ['b', '\n', 'c', '=', 'd'])] [(['a'], ['b']), (['c'], ['d'])] ∧
        ∀ token, hash token [(['a'], ['b', '\n', 'c', '=', 'd'])]
          = hash token [(['a'], ['b']), (['c'], ['d'])]) := by
  have hs : sortedLines p = sortedLines q :=
    sortedLines_eq_of_join_eq p q (fun kv hkv => (hp kv hkv).2) (fun kv hkv => (hq kv hkv).2) h
  have hperm : (p.map line).Perm (q.map line) := by
    have e1 : (sortedLines p).Perm (p.map line) := sort_perm _
    have e2 : (sortedLines q).Perm (q.map line) := sort_perm _
    exact e1.symm.trans (hs ▸ e2)
  have hm := hperm.map unline
  rw [map_unline_line p fun kv hkv => (hp kv hkv).1,
    map_unline_line q fun kv hkv => (hq kv hkv).1] at hm
  have hd : dataCheckString [(['a'], ['b', '\n', 'c', '=', 'd'])]
      = dataCheckString [(['a'], ['b']), (['c'], ['d'])] := by decide
  refine ⟨hm, hd, fun hp2 => ?_, fun token => by unfold hash; rw [hd]⟩
  have := hp2.length_eq
  simp at this

/-- C16 at two fields in both orders. -/
theorem dataCheckString_unambiguous_witness :
    (∀ kv ∈ [(['a'], ['b']), (['c'], ['d'])], '=' ∉ kv.1 ∧ '\n' ∉ kv.1 ∧ '\n' ∉ kv.2) ∧
      (∀ kv ∈ [(['c'], ['d']), (['a'], ['b'])], '=' ∉ kv.1 ∧ '\n' ∉ kv.1 ∧ '\n' ∉ kv.2) ∧
      dataCheckString [(['a'], ['b']), (['c'], ['d'])]
        = dataCheckString [(['c'], ['d']), (['a'], ['b'])] ∧
      List.Perm [(['a'], ['b']), (['c'], ['d'])] [(['c'], ['d']), (['a'], ['b'])] :=
  ⟨by decide, by decide, by decide,
    (dataCheckString_unambiguous [(['a'], ['b']), (['c'], ['d'])]
      [(['c'], ['d']), (['a'], ['b'])] (by decide) (by decide) (by decide)).1⟩

/-- C15: for every payload, splitting the printed string on `&` and `=` and
form-urlencoded decoding of each name and value gives the original fields in insertion
order followed by `hash` and the signature; and for every user record, percent-decoding
the stored `user` value, also the one so recovered from the printed string, gives the JSON
text that was serialized. -/
theorem output_round_trip (token : Str) (p : Payload) (u : User)
    (_hid : isSafeInteger u.id) :
    formUrlParse (output token p) = p ++ [("hash".toList, hash token p)] ∧
      percentDecodeString (userValue u) = jsonStringify (userObject u) ∧
      (formUrlParse (output token (("user".toList, userValue u) :: p))).head?.map
          (fun kv => (kv.1, percentDecodeString kv.2))
        = some ("user".toList, jsonStringify (userObject u)) := by
  have h1 : ∀ q : Payload, formUrlParse (output token q)
      = q ++ [("hash".toList, hash token q)] := fun q =>
    formUrlParse_toString (signed token q) (by simp [signed, URLSearchParams.append])
  have h2 : percentDecodeString (userValue u) = jsonStringify (userObject u) :=
    percentDecodeString_encodeURIComponent _
  refine ⟨h1 p, h2, ?_⟩
  rw [h1, List.cons_append, List.head?_cons, Option.map_some', h2]

/-- C15 at the inputs of the script. -/
theorem output_round_trip_witness :
    isSafeInteger sampleUser.id ∧
      formUrlParse (output fakeBotToken initDataRaw)
        = initDataRaw ++ [("hash".toList, hash fakeBotToken initDataRaw)] :=
  ⟨by decide, (output_round_trip fakeBotToken initDataRaw sampleUser (by decide)).1⟩

end GenerateData
